import Mathlib

/-!
# fdb-go: typed futures, the transaction façade and subspaces

A shallow embedding of `fdb/futures.go`, `fdb/transaction.go`,
`fdb/subspace/subspace.go` and the enum part of `translate_fdb_options.go`.

The native engine (`fdb_c`) is external.  Every operation of the embedding
therefore

* takes the engine's answers (readiness, error code, out-parameters, the handle
  of a freshly created future) as arguments, and
* returns, next to its Go result, the list of engine calls it issued, in order.

A `[]byte` that is only read is represented by its contents (`List Byte`); the
nil slice and the empty slice are both `[]`.  Where Go distinguishes nil from a
non-nil slice (the cached result of a future) the value is an `Option`.
-/

namespace fdb

/-! ## Machine-level vocabulary -/

/-- A Go `byte`. -/
abbrev Byte := Fin 256

/-- The pointer `*C.FDBFuture`, as an abstract handle. -/
abbrev FDBFuture := Nat

/-- The pointer `*C.FDBTransaction`, as an abstract handle. -/
abbrev FDBTransaction := Nat

/-- The conversion `C.int(x)` (also `C.fdb_bool_t(x)` and the C enum types) of a
Go integer: the value wrapped to a signed 32-bit integer. -/
def toCInt (x : Int) : Int := (x + 2 ^ 31) % 2 ^ 32 - 2 ^ 31

/-- Go `int` arithmetic on the 64-bit platforms the engine's client library
exists for: results wrap to a signed 64-bit integer. -/
def wrapInt64 (x : Int) : Int := (x + 2 ^ 63) % 2 ^ 64 - 2 ^ 63

/-- Run-time panics of the Go code that the modelled functions can raise. -/
inductive Panic
  | indexOutOfRange
  | makeNegativeLen
deriving DecidableEq, Repr

/-- The type `fdb.Error`: the raw engine error code. -/
structure Error where
  Code : Int
deriving DecidableEq, Repr

/-- The type `ConflictRangeType` with its two generated constants
`ConflictRangeTypeRead` and `ConflictRangeTypeWrite`. -/
inductive ConflictRangeType
  | Read
  | Write
deriving DecidableEq, Repr

/-- The fifteen arguments of `fdb_transaction_get_range`, after the cgo
conversions of `doGetRange`. -/
structure GetRangeArgs where
  t : FDBTransaction
  begin_key_name : List Byte
  begin_key_name_length : Int
  begin_or_equal : Int
  begin_offset : Int
  end_key_name : List Byte
  end_key_name_length : Int
  end_or_equal : Int
  end_offset : Int
  limit : Int
  target_bytes : Int
  mode : Int
  iteration : Int
  snapshot : Int
  reverse : Int
deriving DecidableEq, Repr

/-- One call into the native engine, with the arguments the Go code passes.
A `(pointer, length)` pair is recorded as the bytes the pointer addresses
together with the `C.int` length that is passed. -/
inductive EngineCall
  | fdb_future_is_ready (f : FDBFuture)
  | go_set_callback (f : FDBFuture)
  | fdb_future_cancel (f : FDBFuture)
  | fdb_future_get_value (f : FDBFuture)
  | fdb_future_get_key (f : FDBFuture)
  | fdb_future_get_error (f : FDBFuture)
  | fdb_future_get_keyvalue_array (f : FDBFuture)
  | fdb_future_get_version (f : FDBFuture)
  | fdb_future_release_memory (f : FDBFuture)
  | fdb_future_destroy (f : FDBFuture)
  | fdb_transaction_get (t : FDBTransaction) (key : List Byte) (keyLen : Int) (snapshot : Int)
  | fdb_transaction_set (t : FDBTransaction) (key : List Byte) (keyLen : Int)
      (value : List Byte) (valueLen : Int)
  | fdb_transaction_clear (t : FDBTransaction) (key : List Byte) (keyLen : Int)
  | fdb_transaction_get_range (args : GetRangeArgs)
  | fdb_transaction_add_conflict_range (t : FDBTransaction) (begin_ : List Byte) (beginLen : Int)
      (end_ : List Byte) (endLen : Int) (crtype : ConflictRangeType)
deriving DecidableEq, Repr

/-- The outcome of running a Go function that may panic: the engine calls issued
(up to the panic, if any) and the returned value or the panic. -/
structure Run (α : Type) where
  calls : List EngineCall
  result : Except Panic α

/-- What the engine answers during one `GetWithError`: the answer of
`fdb_future_is_ready`, the error code returned by the extract function and the
out-parameters the extract function writes.  `bytes` is the byte string a
`(value, length)` out-parameter pair denotes; `kvs`, `count` and `more` are the
out-parameters of `fdb_future_get_keyvalue_array` and `mem` is the native memory
`kvs` points into. -/
structure EngineReply where
  ready : Int
  err : Int
  present : Int
  bytes : List Byte
  version : Int
  kvs : Nat
  count : Int
  more : Int
  mem : Nat → Byte

/-! ## futures.go -/

/-- The function `fdb_future_block_until_ready`, seen sequentially: the engine
calls of a wait that completes, when the engine answers `ready` to the readiness
query.  When the future is not ready the function registers the callback and
blocks until the callback signals the channel.  Whether and when the wait
completes is the matter of the transition system `Waiter` below, whose calls at
the return are the ones given here. -/
def fdb_future_block_until_ready (f : FDBFuture) (ready : Int) : List EngineCall :=
  if ready ≠ 0 then [.fdb_future_is_ready f]
  else [.fdb_future_is_ready f, .go_set_callback f]

/-- The method `future.IsReady`. -/
def future.IsReady (f : FDBFuture) (ready : Int) : List EngineCall × Bool :=
  ([.fdb_future_is_ready f], decide (ready ≠ 0))

/-- The method `future.Cancel`. -/
def future.Cancel (f : FDBFuture) : List EngineCall :=
  [.fdb_future_cancel f]

/-- The type `FutureValue`: handle, cached value (`none` is the nil slice) and
the `set` flag. -/
structure FutureValue where
  f : FDBFuture
  v : Option (List Byte)
  set : Bool
deriving DecidableEq, Repr

/-- The method `FutureValue.destroy`. -/
def FutureValue.destroy (v : FutureValue) : List EngineCall :=
  [.fdb_future_destroy v.f]

/-- The method `FutureValue.GetWithError`: the updated receiver, the engine calls
issued, and the returned pair `([]byte, error)`. -/
def FutureValue.GetWithError (v : FutureValue) (e : EngineReply) :
    FutureValue × List EngineCall × Option (List Byte) × Option Error :=
  if v.set then (v, [], v.v, none)
  else
    let calls := fdb_future_block_until_ready v.f e.ready ++ [.fdb_future_get_value v.f]
    if e.err ≠ 0 ∧ e.err ≠ 2017 then (v, calls, none, some ⟨e.err⟩)
    else
      let v1 : FutureValue := if e.present ≠ 0 then { v with v := some e.bytes } else v
      let v2 : FutureValue := { v1 with set := true }
      (v2, calls ++ [.fdb_future_release_memory v.f], v2.v, none)

/-- The type `FutureKey`: handle and cached key (`none` is the nil slice). -/
structure FutureKey where
  f : FDBFuture
  k : Option (List Byte)
deriving DecidableEq, Repr

/-- The method `FutureKey.destroy`. -/
def FutureKey.destroy (k : FutureKey) : List EngineCall :=
  [.fdb_future_destroy k.f]

/-- The method `FutureKey.GetWithError`.  `C.GoBytes` always returns a non-nil
slice, also for length 0. -/
def FutureKey.GetWithError (k : FutureKey) (e : EngineReply) :
    FutureKey × List EngineCall × Option (List Byte) × Option Error :=
  match k.k with
  | some cached => (k, [], some cached, none)
  | none =>
    let calls := fdb_future_block_until_ready k.f e.ready ++ [.fdb_future_get_key k.f]
    if e.err ≠ 0 ∧ e.err ≠ 2017 then (k, calls, none, some ⟨e.err⟩)
    else
      let k1 : FutureKey := { k with k := some e.bytes }
      (k1, calls ++ [.fdb_future_release_memory k.f], k1.k, none)

/-- The type `FutureNil`. -/
structure FutureNil where
  f : FDBFuture
deriving DecidableEq, Repr

/-- The function `makeFutureNil`. -/
def makeFutureNil (f : FDBFuture) : FutureNil := ⟨f⟩

/-- The method `FutureNil.destroy`. -/
def FutureNil.destroy (f : FutureNil) : List EngineCall :=
  [.fdb_future_destroy f.f]

/-- The method `FutureNil.GetWithError`: engine calls and the returned error. -/
def FutureNil.GetWithError (f : FutureNil) (e : EngineReply) :
    List EngineCall × Option Error :=
  let calls := fdb_future_block_until_ready f.f e.ready ++ [.fdb_future_get_error f.f]
  if e.err ≠ 0 then (calls, some ⟨e.err⟩) else (calls, none)

/-- The type `KeyValue`. -/
structure KeyValue where
  Key : List Byte
  Value : List Byte
deriving DecidableEq, Repr

/-- The type `FutureKeyValueArray`. -/
structure FutureKeyValueArray where
  f : FDBFuture
deriving DecidableEq, Repr

/-- The method `FutureKeyValueArray.destroy`. -/
def FutureKeyValueArray.destroy (f : FutureKeyValueArray) : List EngineCall :=
  [.fdb_future_destroy f.f]

/-- Little-endian read of `n` bytes of native memory at `addr`. -/
def readLE (mem : Nat → Byte) (addr : Nat) : Nat → Nat
  | 0 => 0
  | n + 1 => (mem addr).val + 256 * readLE mem (addr + 1) n

/-- The `size` bytes of native memory starting at `src` (what `memcpy` copies). -/
def readBytes (mem : Nat → Byte) (src : Nat) (size : Nat) : List Byte :=
  (List.range size).map fun i => mem (src + i)

/-- The function `stringRefToSlice`: the length is the C `int` at `ptr+8`, the
source pointer is the 8-byte pointer at `ptr`. -/
def stringRefToSlice (mem : Nat → Byte) (ptr : Nat) : Except Panic (List Byte) :=
  let size : Int := toCInt (readLE mem (ptr + 8) 4)
  if size = 0 then .ok []
  else if size < 0 then .error .makeNegativeLen
  else .ok (readBytes mem (readLE mem ptr 8) size.toNat)

/-- The two assignments `ret[i].Key = …` and `ret[i].Value = …` of the loop
body, given the outcomes of the two `stringRefToSlice` calls: the first panic,
if any, is the outcome. -/
def FutureKeyValueArray.assign (key value : Except Panic (List Byte)) :
    Except Panic KeyValue :=
  match key, value with
  | .ok k, .ok v => .ok ⟨k, v⟩
  | .error p, _ => .error p
  | .ok _, .error p => .error p

/-- One pass of the loop body of `FutureKeyValueArray.GetWithError`: the key
and the value of the array element at `kvptr`. -/
def FutureKeyValueArray.entry (mem : Nat → Byte) (kvptr : Nat) : Except Panic KeyValue :=
  FutureKeyValueArray.assign (stringRefToSlice mem kvptr) (stringRefToSlice mem (kvptr + 12))

/-- An entry followed by the entries of the later passes; the first panic, if
any, is the outcome. -/
def FutureKeyValueArray.push (kv : Except Panic KeyValue) (rest : Except Panic (List KeyValue)) :
    Except Panic (List KeyValue) :=
  match kv, rest with
  | .ok x, .ok xs => .ok (x :: xs)
  | .error p, _ => .error p
  | .ok _, .error p => .error p

/-- The loop of `FutureKeyValueArray.GetWithError` for the indices
`i, i+1, …, i+n-1`. -/
def FutureKeyValueArray.decode (mem : Nat → Byte) (kvs : Nat) (i : Nat) :
    Nat → Except Panic (List KeyValue)
  | 0 => .ok []
  | n + 1 =>
    FutureKeyValueArray.push (FutureKeyValueArray.entry mem (kvs + i * 24))
      (FutureKeyValueArray.decode mem kvs (i + 1) n)

/-- The method `FutureKeyValueArray.GetWithError`: the returned triple
`([]KeyValue, bool, error)`; `none` is the nil slice. -/
def FutureKeyValueArray.GetWithError (f : FutureKeyValueArray) (e : EngineReply) :
    Run (Option (List KeyValue) × Bool × Option Error) :=
  let calls := fdb_future_block_until_ready f.f e.ready ++ [.fdb_future_get_keyvalue_array f.f]
  if e.err ≠ 0 then ⟨calls, .ok (none, false, some ⟨e.err⟩)⟩
  else if e.count < 0 then ⟨calls, .error .makeNegativeLen⟩
  else
    match FutureKeyValueArray.decode e.mem e.kvs 0 e.count.toNat with
    | .ok ret => ⟨calls, .ok (some ret, decide (e.more ≠ 0), none)⟩
    | .error p => ⟨calls, .error p⟩

/-- The type `FutureVersion`. -/
structure FutureVersion where
  f : FDBFuture
deriving DecidableEq, Repr

/-- The method `FutureVersion.destroy`. -/
def FutureVersion.destroy (v : FutureVersion) : List EngineCall :=
  [.fdb_future_destroy v.f]

/-- The method `FutureVersion.GetWithError`: engine calls and the returned pair
`(int64, error)`. -/
def FutureVersion.GetWithError (v : FutureVersion) (e : EngineReply) :
    List EngineCall × Int × Option Error :=
  let calls := fdb_future_block_until_ready v.f e.ready ++ [.fdb_future_get_version v.f]
  if e.err ≠ 0 then (calls, 0, some ⟨e.err⟩) else (calls, e.version, none)

/-- The receiver after a series of `GetWithError` calls, one per engine reply. -/
def FutureValue.after (v : FutureValue) : List EngineReply → FutureValue
  | [] => v
  | e :: es => FutureValue.after (v.GetWithError e).1 es

/-- One of the five typed futures. -/
inductive TypedFuture
  | value (v : FutureValue)
  | key (k : FutureKey)
  | void (f : FutureNil)
  | keyValueArray (f : FutureKeyValueArray)
  | version (v : FutureVersion)

/-- The native handle a typed future wraps. -/
def TypedFuture.handle : TypedFuture → FDBFuture
  | .value v => v.f
  | .key k => k.f
  | .void f => f.f
  | .keyValueArray f => f.f
  | .version v => v.f

/-- A method call on a typed future, with the engine's answers during it. -/
inductive FutureCall
  | destroy
  | IsReady (ready : Int)
  | BlockUntilReady (ready : Int)
  | Cancel
  | GetWithError (e : EngineReply)

/-- Whether the call is `destroy`. -/
def FutureCall.isDestroy : FutureCall → Bool
  | .destroy => true
  | _ => false

/-- One method call on a typed future: the future afterwards and the engine
calls issued. -/
def TypedFuture.call (x : TypedFuture) : FutureCall → TypedFuture × List EngineCall
  | .destroy =>
    match x with
    | .value v => (x, v.destroy)
    | .key k => (x, k.destroy)
    | .void f => (x, f.destroy)
    | .keyValueArray f => (x, f.destroy)
    | .version v => (x, v.destroy)
  | .IsReady ready => (x, (future.IsReady x.handle ready).1)
  | .BlockUntilReady ready => (x, fdb_future_block_until_ready x.handle ready)
  | .Cancel => (x, future.Cancel x.handle)
  | .GetWithError e =>
    match x with
    | .value v => (.value (v.GetWithError e).1, (v.GetWithError e).2.1)
    | .key k => (.key (k.GetWithError e).1, (k.GetWithError e).2.1)
    | .void f => (x, (f.GetWithError e).1)
    | .keyValueArray f => (x, (f.GetWithError e).calls)
    | .version v => (x, (v.GetWithError e).1)

/-- A sequence of method calls on one typed future: the future afterwards and
all engine calls issued, in order. -/
def TypedFuture.run (x : TypedFuture) : List FutureCall → TypedFuture × List EngineCall
  | [] => (x, [])
  | c :: cs => ((x.call c).1.run cs |>.1, (x.call c).2 ++ ((x.call c).1.run cs).2)

/-! ### The blocking wait as a transition system

`fdb_future_block_until_ready` runs on the caller's goroutine; the callback
`go_callback` runs on an engine thread and sends on the unbuffered channel. -/

/-- Program points of `fdb_future_block_until_ready`; `panicked` is the end of
an execution whose call into C was refused by the Go runtime. -/
inductive WaitPc
  | entry
  | checked (ready : Int)
  | chanMade
  | receiving
  | returned
  | panicked
deriving DecidableEq, Repr

/-- The state of one execution of `fdb_future_block_until_ready`: program point,
engine calls issued so far, whether the engine's callback is blocked sending on
the channel, and the number of signals received from the channel. -/
structure Waiter where
  pc : WaitPc
  calls : List EngineCall
  senderWaiting : Bool
  received : Nat
deriving DecidableEq, Repr

/-- What can happen next: the caller's goroutine executes its next statement
(`sched ready`, where `ready` is what the engine would answer to a readiness
query now), or the engine invokes the registered callback (`callback`). -/
inductive WaitEvent
  | sched (ready : Int)
  | callback
deriving DecidableEq, Repr

/-- The state on entry to `fdb_future_block_until_ready`. -/
def Waiter.init : Waiter := ⟨.entry, [], false, 0⟩

/-- Modelled from the spec: `notifyChannel`, which `go_callback` calls and which
is defined in another file of the package, signals the single-slot rendezvous
channel it is handed (§4.1): a send, which then waits for the receiver. -/
def notifyChannel (w : Waiter) : Waiter :=
  { w with senderWaiting := true }

/-- One event of an execution of `fdb_future_block_until_ready`.  The `sched`
cases are its statements: the readiness query; the test of the answer together
with `make(chan struct{})`; `go_set_callback`; and the receive `<-ch`, which
completes only when a sender is waiting.

`cgocheck` says whether the Go runtime checks the pointers handed to C, which is
its default (`cgocheck=1`).  The argument `unsafe.Pointer(&ch)` of
`go_set_callback` points to Go memory that holds a Go pointer, the channel; with
the check on, the runtime panics on it before `go_set_callback` is entered, so
no callback is registered.

The `callback` case is `go_callback` running on the engine's thread: before
`go_set_callback` no callback is registered and after the return nobody
receives, so there the event changes nothing for the waiting goroutine. -/
def Waiter.step (cgocheck : Bool) (f : FDBFuture) (w : Waiter) : WaitEvent → Waiter
  | .sched ready =>
    match w.pc with
    | .entry => { w with pc := .checked ready, calls := w.calls ++ [.fdb_future_is_ready f] }
    | .checked r => if r ≠ 0 then { w with pc := .returned } else { w with pc := .chanMade }
    | .chanMade =>
      if cgocheck then { w with pc := .panicked }
      else { w with pc := .receiving, calls := w.calls ++ [.go_set_callback f] }
    | .receiving =>
      if w.senderWaiting then
        { w with pc := .returned, senderWaiting := false, received := w.received + 1 }
      else w
    | .returned => w
    | .panicked => w
  | .callback =>
    match w.pc with
    | .receiving => notifyChannel w
    | _ => w

/-- The state after a sequence of events. -/
def Waiter.exec (cgocheck : Bool) (f : FDBFuture) (w : Waiter) : List WaitEvent → Waiter
  | [] => w
  | ev :: evs => Waiter.exec cgocheck f (w.step cgocheck f ev) evs

/-! ## transaction.go -/

/-- The type `Transaction` (its options view is not modelled). -/
structure Transaction where
  t : FDBTransaction
deriving DecidableEq, Repr

/-- The method `Transaction.get`; `fut` is the handle the engine returns.
Evaluating the argument `&key[0]` panics on an empty key, before the call. -/
def Transaction.get (t : Transaction) (fut : FDBFuture) (key : List Byte) (snapshot : Int) :
    Run FutureValue :=
  match key with
  | [] => ⟨[], .error .indexOutOfRange⟩
  | _ :: _ =>
    ⟨[.fdb_transaction_get t.t key (toCInt key.length) (toCInt snapshot)],
      .ok ⟨fut, none, false⟩⟩

/-- The method `Transaction.Get`. -/
def Transaction.Get (t : Transaction) (fut : FDBFuture) (key : List Byte) : Run FutureValue :=
  t.get fut key 0

/-- The method `Transaction.Set`.  The arguments are evaluated left to right:
`&key[0]` panics on an empty key, `&value[0]` on an empty value. -/
def Transaction.Set (t : Transaction) (key value : List Byte) : Run Unit :=
  match key with
  | [] => ⟨[], .error .indexOutOfRange⟩
  | _ :: _ =>
    match value with
    | [] => ⟨[], .error .indexOutOfRange⟩
    | _ :: _ =>
      ⟨[.fdb_transaction_set t.t key (toCInt key.length) value (toCInt value.length)], .ok ()⟩

/-- The method `Transaction.Clear`. -/
def Transaction.Clear (t : Transaction) (key : List Byte) : Run Unit :=
  match key with
  | [] => ⟨[], .error .indexOutOfRange⟩
  | _ :: _ => ⟨[.fdb_transaction_clear t.t key (toCInt key.length)], .ok ()⟩

/-- The function `boolToInt`. -/
def boolToInt (b : Bool) : Int := if b then 1 else 0

/-- The type `KeySelector`, with the fields `doGetRange` reads. -/
structure KeySelector where
  Key : List Byte
  OrEqual : Bool
  Offset : Int
deriving DecidableEq, Repr

/-- The type `RangeOptions`, with the fields `doGetRange` reads; `Limit` and
`Mode` are Go `int`s. -/
structure RangeOptions where
  Limit : Int
  Mode : Int
  Reverse : Bool
deriving DecidableEq, Repr

/-- The type `RangeResult`, with the fields `getRangeSelector` fills. -/
structure RangeResult where
  t : Transaction
  begin_ : KeySelector
  end_ : KeySelector
  options : RangeOptions
  snapshot : Bool
  f : FutureKeyValueArray
deriving DecidableEq, Repr

/-- The method `Transaction.doGetRange`; `fut` is the handle the engine returns.
`&(begin.Key[0])` and `&(end.Key[0])` panic on an empty selector key. -/
def Transaction.doGetRange (t : Transaction) (fut : FDBFuture) (begin_ end_ : KeySelector)
    (options : RangeOptions) (snapshot : Bool) (iteration : Int) : Run FutureKeyValueArray :=
  match begin_.Key, end_.Key with
  | [], _ => ⟨[], .error .indexOutOfRange⟩
  | _ :: _, [] => ⟨[], .error .indexOutOfRange⟩
  | _ :: _, _ :: _ =>
    ⟨[.fdb_transaction_get_range
        { t := t.t
          begin_key_name := begin_.Key
          begin_key_name_length := toCInt begin_.Key.length
          begin_or_equal := toCInt (boolToInt begin_.OrEqual)
          begin_offset := toCInt begin_.Offset
          end_key_name := end_.Key
          end_key_name_length := toCInt end_.Key.length
          end_or_equal := toCInt (boolToInt end_.OrEqual)
          end_offset := toCInt end_.Offset
          limit := toCInt options.Limit
          target_bytes := toCInt 0
          mode := toCInt (wrapInt64 (options.Mode - 1))
          iteration := toCInt iteration
          snapshot := toCInt (boolToInt snapshot)
          reverse := toCInt (boolToInt options.Reverse) }],
      .ok ⟨fut⟩⟩

/-- The method `Transaction.getRangeSelector`. -/
def Transaction.getRangeSelector (t : Transaction) (fut : FDBFuture) (begin_ end_ : KeySelector)
    (options : RangeOptions) (snapshot : Bool) : Run RangeResult :=
  match t.doGetRange fut begin_ end_ options snapshot 1 with
  | ⟨calls, .ok f⟩ => ⟨calls, .ok ⟨t, begin_, end_, options, snapshot, f⟩⟩
  | ⟨calls, .error p⟩ => ⟨calls, .error p⟩

/-- The method `Transaction.GetRangeSelector`. -/
def Transaction.GetRangeSelector (t : Transaction) (fut : FDBFuture) (begin_ end_ : KeySelector)
    (options : RangeOptions) : Run RangeResult :=
  t.getRangeSelector fut begin_ end_ options false

/-- The method `Transaction.GetRange`.  The constructor `FirstGreaterOrEqual` is
declared in another file of the package and is a parameter. -/
def Transaction.GetRange (FirstGreaterOrEqual : List Byte → KeySelector) (t : Transaction)
    (fut : FDBFuture) (begin_ end_ : List Byte) (options : RangeOptions) : Run RangeResult :=
  t.getRangeSelector fut (FirstGreaterOrEqual begin_) (FirstGreaterOrEqual end_) options false

/-- A Go slice whose backing array matters: `arr` is the backing array from the
slice's first element up to its capacity, `len` the slice's length. -/
structure Slice where
  arr : List Byte
  len : Nat
deriving DecidableEq, Repr

/-- The contents of a slice. -/
def Slice.bytes (s : Slice) : List Byte := s.arr.take s.len

/-- Go's `append(s, b)`: the resulting slice and the backing array of `s`
afterwards.  With spare capacity the byte is written in place, past the end of
`s`; otherwise a new array is allocated, with `spare` further elements. -/
def goAppend (s : Slice) (b : Byte) (spare : Nat) : Slice × List Byte :=
  if s.len < s.arr.length then
    (⟨s.arr.set s.len b, s.len + 1⟩, s.arr.set s.len b)
  else
    (⟨s.arr.take s.len ++ [b] ++ List.replicate spare 0, s.len + 1⟩, s.arr)

/-- The method `Transaction.addConflictRange`; `engine` gives the error code the
engine returns for a call. -/
def Transaction.addConflictRange (t : Transaction) (engine : EngineCall → Int)
    (begin_ end_ : List Byte) (crtype : ConflictRangeType) : Run (Option Error) :=
  match begin_, end_ with
  | [], _ => ⟨[], .error .indexOutOfRange⟩
  | _ :: _, [] => ⟨[], .error .indexOutOfRange⟩
  | _ :: _, _ :: _ =>
    let c := EngineCall.fdb_transaction_add_conflict_range t.t begin_ (toCInt begin_.length)
      end_ (toCInt end_.length) crtype
    ⟨[c], .ok (if engine c ≠ 0 then some ⟨engine c⟩ else none)⟩

/-- The method `Transaction.AddReadConflictRange`. -/
def Transaction.AddReadConflictRange (t : Transaction) (engine : EngineCall → Int)
    (begin_ end_ : List Byte) : Run (Option Error) :=
  t.addConflictRange engine begin_ end_ .Read

/-- The method `Transaction.AddWriteConflictRange`. -/
def Transaction.AddWriteConflictRange (t : Transaction) (engine : EngineCall → Int)
    (begin_ end_ : List Byte) : Run (Option Error) :=
  t.addConflictRange engine begin_ end_ .Write

/-- The method `Transaction.AddReadConflictKey`: the outcome and the caller's
`key` slice afterwards. -/
def Transaction.AddReadConflictKey (t : Transaction) (engine : EngineCall → Int)
    (key : Slice) (spare : Nat) : Run (Option Error) × Slice :=
  let appended := goAppend key 0 spare
  let key1 : Slice := ⟨appended.2, key.len⟩
  (t.addConflictRange engine key1.bytes appended.1.bytes .Read, key1)

/-- The method `Transaction.AddWriteConflictKey`: the outcome and the caller's
`key` slice afterwards. -/
def Transaction.AddWriteConflictKey (t : Transaction) (engine : EngineCall → Int)
    (key : Slice) (spare : Nat) : Run (Option Error) × Slice :=
  let appended := goAppend key 0 spare
  let key1 : Slice := ⟨appended.2, key.len⟩
  (t.addConflictRange engine key1.bytes appended.1.bytes .Write, key1)

end fdb

/-! ## subspace.go -/

set_option linter.dupNamespace false

namespace subspace

open fdb

/-- Go's `bytes.HasPrefix(s, pre)`:
`len(s) >= len(pre) && bytes.Equal(s[0:len(pre)], pre)`. -/
def bytes.HasPrefix (s pre : List Byte) : Bool :=
  decide (s.length ≥ pre.length) && decide (s.take pre.length = pre)

/-- Go's built-in `copy(dst, src)`: `dst` afterwards. -/
def copy (dst src : List Byte) : List Byte :=
  src.take dst.length ++ dst.drop src.length

/-- The function `concat`. -/
def concat (a b : List Byte) : List Byte :=
  let r : List Byte := List.replicate (a.length + b.length) 0
  let r1 := copy r a
  r1.take a.length ++ copy (r1.drop a.length) b

/-- The type `subspace`. -/
structure subspace where
  b : List Byte
deriving DecidableEq, Repr

/-- The function `AllKeys`. -/
def AllKeys : subspace := ⟨[]⟩

/-- The function `FromBytes`. -/
def FromBytes (b : List Byte) : subspace := ⟨b⟩

/-- The method `subspace.Bytes`. -/
def subspace.Bytes (s : subspace) : List Byte := s.b

/-- The method `subspace.Pack`; `tuplePack` is `tuple.Tuple.Pack`. -/
def subspace.Pack {T : Type} (tuplePack : T → List Byte) (s : subspace) (t : T) : List Byte :=
  concat s.b (tuplePack t)

/-- The method `subspace.Unpack`; `tupleUnpack` is `tuple.Unpack`. -/
def subspace.Unpack {T : Type} (tupleUnpack : List Byte → Except String T) (s : subspace)
    (k : List Byte) : Except String T :=
  if !bytes.HasPrefix k s.b then .error "key is not in subspace"
  else tupleUnpack (k.drop s.b.length)

/-- The method `subspace.Contains`. -/
def subspace.Contains (s : subspace) (k : List Byte) : Bool :=
  bytes.HasPrefix k s.b

/-- The method `subspace.ToFDBKey`. -/
def subspace.ToFDBKey (s : subspace) : List Byte := s.b

/-- The method `subspace.BeginKey`. -/
def subspace.BeginKey (s : subspace) : List Byte := concat s.b [0x00]

/-- The method `subspace.EndKey`. -/
def subspace.EndKey (s : subspace) : List Byte := concat s.b [0xFF]

/-- The engine's key order: bytewise lexicographic, a proper prefix first. -/
def keyLess : List Byte → List Byte → Bool
  | _, [] => false
  | [], _ :: _ => true
  | x :: xs, y :: ys => decide (x < y) || (decide (x = y) && keyLess xs ys)

/-- Whether `k` lies in the half-open key range `[lo, hi)`. -/
def inRange (lo hi k : List Byte) : Bool :=
  !keyLess k lo && keyLess k hi

/-- A stand-in tuple encoding for concrete instances: a tuple is the list of its
bytes, packed behind the type code `0x01`. -/
def demoPack (t : List Byte) : List Byte := 0x01 :: t

/-- The decoder of the stand-in tuple encoding. -/
def demoUnpack : List Byte → Except String (List Byte)
  | 0x01 :: t => .ok t
  | _ => .error "malformed tuple"

end subspace

namespace fdb

/-- The `limit` arguments of the range requests among a list of engine calls. -/
def requestLimits : List EngineCall → List Int
  | [] => []
  | .fdb_transaction_get_range args :: cs => args.limit :: requestLimits cs
  | _ :: cs => requestLimits cs

/-- A reply of the engine with no payload: readiness answer and error code only. -/
def EngineReply.plain (ready err : Int) : EngineReply :=
  ⟨ready, err, 0, [], 0, 0, 0, 0, fun _ => 0⟩

/-- A reply of the engine carrying a present value. -/
def EngineReply.withValue (ready err : Int) (bytes : List Byte) : EngineReply :=
  ⟨ready, err, 1, bytes, 0, 0, 0, 0, fun _ => 0⟩

/-- A stand-in for `FirstGreaterOrEqual` in concrete instances: the selector on
the given key with the engine's convention `or_equal = false`, `offset = 1`. -/
def demoFirstGreaterOrEqual (key : List Byte) : KeySelector := ⟨key, false, 1⟩

/-- The declaration of the one-key conflict range `[key, key ++ 00)` of the
given type, as the engine call that makes it. -/
def conflictKeyCall (t : Transaction) (key : List Byte) (crtype : ConflictRangeType) :
    EngineCall :=
  .fdb_transaction_add_conflict_range t.t key (toCInt key.length)
    (key ++ [0x00]) (toCInt (key ++ [0x00]).length) crtype

/-- The invariant of `fdb_future_block_until_ready` after the readiness query
was answered `r`, when the engine has invoked the callback `n` times. -/
def Waiter.Inv (cgocheck : Bool) (f : FDBFuture) (r : Int) (n : Nat) (w : Waiter) : Prop :=
  match w.pc with
  | .entry => False
  | .checked r1 =>
    r1 = r ∧ w.calls = [.fdb_future_is_ready f] ∧ w.received = 0 ∧ w.senderWaiting = false
  | .chanMade =>
    r = 0 ∧ w.calls = [.fdb_future_is_ready f] ∧ w.received = 0 ∧ w.senderWaiting = false
  | .receiving =>
    cgocheck = false ∧ r = 0 ∧
      w.calls = [.fdb_future_is_ready f, .go_set_callback f] ∧ w.received = 0 ∧
      (w.senderWaiting = true → 0 < n)
  | .returned =>
    (r ≠ 0 ∧ w.calls = [.fdb_future_is_ready f] ∧ w.received = 0) ∨
    (cgocheck = false ∧ r = 0 ∧
      w.calls = [.fdb_future_is_ready f, .go_set_callback f] ∧ w.received = 1 ∧ 0 < n)
  | .panicked =>
    cgocheck = true ∧ r = 0 ∧ w.calls = [.fdb_future_is_ready f] ∧ w.received = 0

end fdb

namespace fdb

/-- One record of the engine's key-value array as the engine lays it out: the
addresses of the key and of the value, and the bytes found there. -/
structure PackedKV where
  keyPtr : Nat
  key : List Byte
  valuePtr : Nat
  value : List Byte
deriving DecidableEq, Repr

/-- Whether native memory holds the packed 24-byte record `r` at `addr`: key
pointer at +0, key length (a C `int`) at +8, value pointer at +12, value length
at +20, and the key and value bytes at the addresses the pointers give. -/
def PackedKV.storedAt (mem : Nat → Byte) (addr : Nat) (r : PackedKV) : Bool :=
  decide (readLE mem addr 8 = r.keyPtr) &&
  decide (readLE mem (addr + 8) 4 = r.key.length) &&
  decide (readLE mem (addr + 12) 8 = r.valuePtr) &&
  decide (readLE mem (addr + 20) 4 = r.value.length) &&
  decide (r.key.length < 2 ^ 31) && decide (r.value.length < 2 ^ 31) &&
  decide (readBytes mem r.keyPtr r.key.length = r.key) &&
  decide (readBytes mem r.valuePtr r.value.length = r.value)

/-- Whether native memory holds the records `rs`, packed one after the other,
as the elements `i, i+1, …` of the array at `kvs`. -/
def PackedKV.arrayAt (mem : Nat → Byte) (kvs : Nat) : Nat → List PackedKV → Bool
  | _, [] => true
  | i, r :: rs => r.storedAt mem (kvs + i * 24) && PackedKV.arrayAt mem kvs (i + 1) rs

/-- Native memory given by a list of bytes starting at address `base`; every
other address holds 0. -/
def memOfList (base : Nat) (bytes : List Byte) : Nat → Byte :=
  fun a => if a < base then 0 else bytes.getD (a - base) 0

/-- Native memory for concrete instances: at address 16 an array of two packed
records, followed at address 64 by the bytes `a`, `12`, `b` they point to. -/
def demoKVMemory : Nat → Byte :=
  memOfList 16
    [64, 0, 0, 0, 0, 0, 0, 0, 1, 0, 0, 0, 65, 0, 0, 0, 0, 0, 0, 0, 2, 0, 0, 0,
     67, 0, 0, 0, 0, 0, 0, 0, 1, 0, 0, 0, 68, 0, 0, 0, 0, 0, 0, 0, 0, 0, 0, 0,
     0x61, 0x31, 0x32, 0x62]

/-- The records held by `demoKVMemory`: `a ↦ 12` and `b ↦` the empty value. -/
def demoKVRecords : List PackedKV :=
  [⟨64, [0x61], 65, [0x31, 0x32]⟩, ⟨67, [0x62], 68, []⟩]

/-- The engine's reply for `demoKVMemory`: code 0, the array at 16, count 2 and
the `more` flag up. -/
def demoKVReply : EngineReply :=
  ⟨1, 0, 0, [], 0, 16, 2, 1, demoKVMemory⟩

/-- The `mode` arguments of the range requests among a list of engine calls. -/
def requestModes : List EngineCall → List Int
  | [] => []
  | .fdb_transaction_get_range args :: cs => args.mode :: requestModes cs
  | _ :: cs => requestModes cs

end fdb

/-! ## translate_fdb_options.go

The generator reads the option catalog as XML and prints Go source.  The model
starts from the parsed catalog; every print is represented by the values it
formats, and an execution by what it has printed and how it ended.  The name
translation (`translateName`, `lowerFirst`), built on Go's `strings` and
`unicode` packages, is a parameter. -/

namespace translate_fdb_options

open fdb

/-- The type `Option` of the generator: one catalog entry. -/
structure Option where
  Name : String
  Code : Int
  ParamType : String
  ParamDesc : String
  Description : String
deriving DecidableEq, Repr

/-- The type `Scope` of the generator. -/
structure Scope where
  Name : String
  Option : List Option
deriving DecidableEq, Repr

/-- The type `Options` of the generator: the parsed catalog. -/
structure Options where
  Scope : List Scope
deriving DecidableEq, Repr

/-- One print of the generator, with the values it formats: the fixed preamble
of `main`; the empty line of `writeOpt`; its two comment lines; the setter
function of `writeOptString`, `writeOptInt` or `writeOptNone`; the one print of
`writeMutation`; the `type … int` and `const (` lines of `main`; the comment
line and the constant line of `writeEnum`; the closing parenthesis. -/
inductive Printed
  | preamble
  | blank
  | comment (text : String)
  | paramComment (text : String)
  | optSetter (receiver function : String) (paramType : String) (code : Int)
  | mutation (description paramDesc function : String) (code : Int)
  | typeDecl (name : String)
  | constComment (text : String)
  | const (ident typeName : String) (value : Int)
  | close
deriving DecidableEq, Repr

/-- How a part of the program ends: it goes on, or `log.Fatalf` ends the
program with a message. -/
inductive Exit
  | done
  | fatal (message : String)
deriving DecidableEq, Repr

/-- A part of an execution: what it printed, in order, and how it ended. -/
structure Output where
  printed : List Printed
  exit : Exit
deriving DecidableEq, Repr

/-- Sequencing: the second part runs only if the first did not end the program;
what the first part printed stays printed. -/
def Output.andThen (first second : Output) : Output :=
  match first.exit with
  | .done => ⟨first.printed ++ second.printed, second.exit⟩
  | .fatal message => ⟨first.printed, .fatal message⟩

/-- Go's `strings.HasSuffix(s, suffix)`, on code points. -/
def strings.HasSuffix (s suffix : String) : Bool :=
  decide (s.data.length ≥ suffix.data.length) &&
    decide (s.data.drop (s.data.length - suffix.data.length) = suffix.data)

/-- The function `writeOpt` with `writeOptString`, `writeOptInt` and
`writeOptNone`: the empty line and the comments are printed first; an unexpected
parameter type then ends the program with
`log.Fatalf("Totally unexpected ParamType %s", opt.ParamType)`. -/
def writeOpt (translateName : String → String) (receiver : String) (opt : Option) : Output :=
  let function := "Set" ++ translateName opt.Name
  let head : List Printed :=
    [Printed.blank] ++
      (if opt.Description ≠ "" then
        [Printed.comment opt.Description] ++
          (if opt.ParamDesc ≠ "" then [Printed.paramComment opt.ParamDesc] else [])
      else [])
  if opt.ParamType = "String" then
    ⟨head ++ [.optSetter receiver function "String" opt.Code], .done⟩
  else if opt.ParamType = "Int" then
    ⟨head ++ [.optSetter receiver function "Int" opt.Code], .done⟩
  else if opt.ParamType = "" then
    ⟨head ++ [.optSetter receiver function "" opt.Code], .done⟩
  else ⟨head, .fatal ("Totally unexpected ParamType " ++ opt.ParamType)⟩

/-- The function `writeMutation`. -/
def writeMutation (translateName : String → String) (opt : Option) : List Printed :=
  [.mutation opt.Description opt.ParamDesc (translateName opt.Name) opt.Code]

/-- The function `writeEnum`; `opt.Code + delta` is Go `int` arithmetic. -/
def writeEnum (translateName : String → String) (scope : Scope) (opt : Option) (delta : Int) :
    List Printed :=
  (if opt.Description ≠ "" then [Printed.constComment opt.Description] else []) ++
    [.const (scope.Name ++ translateName opt.Name) scope.Name (wrapInt64 (opt.Code + delta))]

/-- The loop over the options of an `…Option` scope in `main`. -/
def writeOpts (translateName : String → String) (receiver : String) : List Option → Output
  | [] => ⟨[], .done⟩
  | opt :: opts =>
    if opt.Description ≠ "Deprecated" then
      (writeOpt translateName receiver opt).andThen (writeOpts translateName receiver opts)
    else writeOpts translateName receiver opts

/-- The body of the loop over the scopes in `main`. -/
def mainScope (translateName lowerFirst : String → String) (scope : Scope) : Output :=
  if strings.HasSuffix scope.Name "Option" then
    writeOpts translateName (lowerFirst scope.Name ++ "s") scope.Option
  else if scope.Name = "MutationType" then
    ⟨scope.Option.flatMap (writeMutation translateName), .done⟩
  else
    let d : Int := if scope.Name = "StreamingMode" then 1 else 0
    ⟨[Printed.typeDecl scope.Name] ++
      scope.Option.flatMap (fun opt => writeEnum translateName scope opt d) ++ [Printed.close],
      .done⟩

/-- The loop over the scopes in `main`. -/
def mainLoop (translateName lowerFirst : String → String) : List Scope → Output
  | [] => ⟨[], .done⟩
  | scope :: scopes =>
    (mainScope translateName lowerFirst scope).andThen (mainLoop translateName lowerFirst scopes)

/-- The function `main`, from the parsed catalog on: the preamble, then the loop
over the scopes. -/
def main (translateName lowerFirst : String → String) (v : Options) : Output :=
  Output.andThen ⟨[Printed.preamble], .done⟩ (mainLoop translateName lowerFirst v.Scope)

/-- A stand-in name translation for concrete instances. -/
def demoTranslateName (old : String) : String := old

/-- A catalog for concrete instances: two enum scopes, then an option scope
whose second option has a parameter type the generator does not know. -/
def demoCatalog : Options :=
  ⟨[⟨"ConflictRangeType", [⟨"READ", 0, "", "", ""⟩, ⟨"WRITE", 1, "", "", ""⟩]⟩,
    ⟨"StreamingMode",
      [⟨"WANT_ALL", -2, "", "", ""⟩, ⟨"ITERATOR", -1, "", "", ""⟩, ⟨"EXACT", 0, "", "", ""⟩,
       ⟨"SERIAL", 4, "", "", ""⟩]⟩,
    ⟨"NetworkOption",
      [⟨"TRACE_ENABLE", 30, "String", "path", "Enables tracing"⟩,
       ⟨"TLS_CERT_BYTES", 32, "Bytes", "certificates", "Sets the certificate chain"⟩]⟩]⟩

/-- What `main` does on `demoCatalog` with `demoTranslateName`: it prints the
two enum scopes and the first option, then the empty line and the comments of
the second option, and ends on its parameter type. -/
def demoOutput : Output :=
  ⟨[.preamble,
    .typeDecl "ConflictRangeType",
    .const "ConflictRangeTypeREAD" "ConflictRangeType" 0,
    .const "ConflictRangeTypeWRITE" "ConflictRangeType" 1,
    .close,
    .typeDecl "StreamingMode",
    .const "StreamingModeWANT_ALL" "StreamingMode" (-1),
    .const "StreamingModeITERATOR" "StreamingMode" 0,
    .const "StreamingModeEXACT" "StreamingMode" 1,
    .const "StreamingModeSERIAL" "StreamingMode" 5,
    .close,
    .blank,
    .comment "Enables tracing",
    .paramComment "path",
    .optSetter "NetworkOptions" "SetTRACE_ENABLE" "String" 30,
    .blank,
    .comment "Sets the certificate chain",
    .paramComment "certificates"],
   .fatal "Totally unexpected ParamType Bytes"⟩

end translate_fdb_options

/-! ## Theorems -/

namespace fdb

/-- A value future built by `Transaction.get` and used only through
`GetWithError` holds no value while its `set` flag is down. -/
theorem FutureValue.after_unset (f : FDBFuture) (es : List EngineReply) :
    ∀ v : FutureValue, v.f = f → (v.set = false → v.v = none) →
      ((v.after es).set = false → (v.after es).v = none) := by
  induction es with
  | nil => intro v _ h; simpa [FutureValue.after] using h
  | cons e es ih =>
    intro v hf h
    simp only [FutureValue.after]
    apply ih
    · unfold FutureValue.GetWithError
      split_ifs <;> simp [hf]
    · unfold FutureValue.GetWithError
      split_ifs <;> simp_all

end fdb

namespace fdb

/-- `GetWithError` keeps the handle of a value future. -/
theorem FutureValue.GetWithError_f (v : FutureValue) (e : EngineReply) :
    (v.GetWithError e).1.f = v.f := by
  unfold FutureValue.GetWithError
  split_ifs <;> rfl

/-- A series of `GetWithError` calls keeps the handle of a value future. -/
theorem FutureValue.after_f (es : List EngineReply) :
    ∀ v : FutureValue, (v.after es).f = v.f := by
  induction es with
  | nil => intro v; rfl
  | cons e es ih =>
    intro v
    simp only [FutureValue.after]
    rw [ih, FutureValue.GetWithError_f]

/-- C1: on a value future that has not cached a result yet, for every engine
outcome of extract-value: with error code 0 or 2017 the call returns a nil error
and the engine's bytes when `present` is non-zero, the nil slice otherwise; with
any other error code it returns no value and an `Error` carrying that code. -/
theorem FutureValue.GetWithError_outcome (f : FDBFuture) (history : List EngineReply)
    (e : EngineReply) (hset : ((FutureValue.mk f none false).after history).set = false) :
    EngineCall.fdb_future_get_value f ∈
        (((FutureValue.mk f none false).after history).GetWithError e).2.1 ∧
    ((e.err = 0 ∨ e.err = 2017) →
      (((FutureValue.mk f none false).after history).GetWithError e).2.2 =
        (if e.present ≠ 0 then some e.bytes else none, none)) ∧
    ((e.err ≠ 0 ∧ e.err ≠ 2017) →
      (((FutureValue.mk f none false).after history).GetWithError e).2.2 =
        (none, some ⟨e.err⟩)) := by
  have hv := FutureValue.after_unset f history ⟨f, none, false⟩ rfl (fun _ => rfl) hset
  have hf : ((FutureValue.mk f none false).after history).f = f :=
    FutureValue.after_f history _
  generalize (FutureValue.mk f none false).after history = v at hset hv hf
  obtain ⟨vf, vv, vs⟩ := v
  simp only at hset hv hf
  subst hset hv hf
  refine ⟨?_, ?_, ?_⟩
  · unfold FutureValue.GetWithError
    by_cases h : e.err ≠ 0 ∧ e.err ≠ 2017 <;> simp [h]
  · intro h
    have h2 : ¬ (e.err ≠ 0 ∧ e.err ≠ 2017) := by
      rcases h with h | h <;> simp [h]
    unfold FutureValue.GetWithError
    by_cases hp : e.present = 0 <;> simp [h2, hp]
  · intro h
    unfold FutureValue.GetWithError
    simp [h]

/-- An instance of C1: after a failed extraction (code 1007) the next one, with
the sentinel code 2017 and a present value, succeeds with the engine's bytes. -/
theorem FutureValue.GetWithError_outcome_witness :
    ((FutureValue.mk 7 none false).after [EngineReply.plain 0 1007]).set = false ∧
    (((FutureValue.mk 7 none false).after [EngineReply.plain 0 1007]).GetWithError
        (EngineReply.withValue 1 2017 [0x61, 0x62])).2.2 = (some [0x61, 0x62], none) :=
  ⟨by decide,
   ((FutureValue.GetWithError_outcome 7 [EngineReply.plain 0 1007]
      (EngineReply.withValue 1 2017 [0x61, 0x62]) (by decide)).2.1 (Or.inr rfl))⟩

/-- The engine calls of a key-value-batch `GetWithError`: the wait, then the
extract function, whatever the outcome. -/
theorem FutureKeyValueArray.GetWithError_calls (f : FutureKeyValueArray) (e : EngineReply) :
    (f.GetWithError e).calls =
      fdb_future_block_until_ready f.f e.ready ++ [.fdb_future_get_keyvalue_array f.f] := by
  unfold FutureKeyValueArray.GetWithError
  split_ifs
  · rfl
  · rfl
  · split <;> rfl

/-- C2, as stated, fails on a version future: two `GetWithError` calls run the
engine's extract function `fdb_future_get_version` twice, not once. -/
theorem FutureVersion.GetWithError_extracts_again :
    ¬ (((TypedFuture.version ⟨7⟩).run
          [.GetWithError (EngineReply.plain 1 0), .GetWithError (EngineReply.plain 1 0)]).2.count
        (.fdb_future_get_version 7) ≤ 1) := by
  decide

/-- C2, amended: a value or key future caches a successful extraction, so every
later `GetWithError` returns the identical value with a nil error and makes no
engine call; a failed extraction leaves the future as it was (nothing is
cached).  Void, version and key-value-batch futures keep no cache: every
`GetWithError` waits, calls the engine's extract function again and returns what
that call reports. -/
theorem GetWithError_caching :
    (∀ (v : FutureValue) (e e2 : EngineReply), (v.GetWithError e).2.2.2 = none →
      (v.GetWithError e).1.GetWithError e2 =
        ((v.GetWithError e).1, [], (v.GetWithError e).2.2.1, none)) ∧
    (∀ (k : FutureKey) (e e2 : EngineReply), (k.GetWithError e).2.2.2 = none →
      (k.GetWithError e).1.GetWithError e2 =
        ((k.GetWithError e).1, [], (k.GetWithError e).2.2.1, none)) ∧
    (∀ (v : FutureValue) (e : EngineReply), (v.GetWithError e).2.2.2 ≠ none →
      (v.GetWithError e).1 = v) ∧
    (∀ (k : FutureKey) (e : EngineReply), (k.GetWithError e).2.2.2 ≠ none →
      (k.GetWithError e).1 = k) ∧
    (∀ (f : FutureNil) (e : EngineReply), f.GetWithError e =
      (fdb_future_block_until_ready f.f e.ready ++ [.fdb_future_get_error f.f],
        if e.err ≠ 0 then some ⟨e.err⟩ else none)) ∧
    (∀ (v : FutureVersion) (e : EngineReply), v.GetWithError e =
      (fdb_future_block_until_ready v.f e.ready ++ [.fdb_future_get_version v.f],
        if e.err ≠ 0 then 0 else e.version, if e.err ≠ 0 then some ⟨e.err⟩ else none)) ∧
    (∀ (f : FutureKeyValueArray) (e : EngineReply), (f.GetWithError e).calls =
      fdb_future_block_until_ready f.f e.ready ++ [.fdb_future_get_keyvalue_array f.f]) := by
  refine ⟨?_, ?_, ?_, ?_, ?_, ?_, ?_⟩
  · intro v e e2 h
    obtain ⟨vf, vv, vs⟩ := v
    cases vs
    · by_cases h1 : e.err ≠ 0 ∧ e.err ≠ 2017
      · simp [FutureValue.GetWithError, h1] at h
      · simp [FutureValue.GetWithError, h1]
    · simp [FutureValue.GetWithError]
  · intro k e e2 h
    obtain ⟨kf, kk⟩ := k
    cases kk
    · by_cases h1 : e.err ≠ 0 ∧ e.err ≠ 2017
      · simp [FutureKey.GetWithError, h1] at h
      · simp [FutureKey.GetWithError, h1]
    · simp [FutureKey.GetWithError]
  · intro v e h
    obtain ⟨vf, vv, vs⟩ := v
    cases vs
    · by_cases h1 : e.err ≠ 0 ∧ e.err ≠ 2017
      · simp [FutureValue.GetWithError, h1]
      · simp [FutureValue.GetWithError, h1] at h
    · simp [FutureValue.GetWithError]
  · intro k e h
    obtain ⟨kf, kk⟩ := k
    cases kk
    · by_cases h1 : e.err ≠ 0 ∧ e.err ≠ 2017
      · simp [FutureKey.GetWithError, h1]
      · simp [FutureKey.GetWithError, h1] at h
    · simp [FutureKey.GetWithError]
  · intro f e
    unfold FutureNil.GetWithError
    by_cases h : e.err = 0 <;> simp [h]
  · intro v e
    unfold FutureVersion.GetWithError
    by_cases h : e.err = 0 <;> simp [h]
  · exact FutureKeyValueArray.GetWithError_calls

/-- An instance of amended C2: a value future that extracted the bytes `ab`
answers the next `GetWithError` from its cache, whatever the engine would say. -/
theorem GetWithError_caching_witness :
    ((FutureValue.mk 7 none false).GetWithError (EngineReply.withValue 1 0 [0x61, 0x62])).2.2.2
        = none ∧
    ((FutureValue.mk 7 none false).GetWithError
        (EngineReply.withValue 1 0 [0x61, 0x62])).1.GetWithError (EngineReply.plain 0 1007) =
      (⟨7, some [0x61, 0x62], true⟩, [], some [0x61, 0x62], none) :=
  ⟨rfl, GetWithError_caching.1 ⟨7, none, false⟩ (EngineReply.withValue 1 0 [0x61, 0x62])
    (EngineReply.plain 0 1007) rfl⟩

/-- A method call keeps the handle of a typed future. -/
theorem TypedFuture.call_handle (x : TypedFuture) (c : FutureCall) :
    (x.call c).1.handle = x.handle := by
  cases c <;> cases x <;> simp [TypedFuture.call, TypedFuture.handle]
  · exact FutureValue.GetWithError_f _ _
  · rename_i e k
    unfold FutureKey.GetWithError
    split
    · rfl
    · split_ifs <;> rfl

/-- The blocking wait never destroys a handle. -/
theorem count_destroy_block_until_ready (f h : FDBFuture) (ready : Int) :
    (fdb_future_block_until_ready f ready).count (.fdb_future_destroy h) = 0 := by
  unfold fdb_future_block_until_ready
  split_ifs <;> simp

/-- One method call issues destroy-handle once if it is `destroy`, and not at
all otherwise. -/
theorem TypedFuture.call_count_destroy (x : TypedFuture) (c : FutureCall) :
    (x.call c).2.count (.fdb_future_destroy x.handle) = if c.isDestroy then 1 else 0 := by
  cases c with
  | destroy =>
    cases x <;>
      simp [TypedFuture.call, TypedFuture.handle, FutureCall.isDestroy, FutureValue.destroy,
        FutureKey.destroy, FutureNil.destroy, FutureKeyValueArray.destroy, FutureVersion.destroy]
  | IsReady ready =>
    simp [TypedFuture.call, FutureCall.isDestroy, future.IsReady]
  | BlockUntilReady ready =>
    simp [TypedFuture.call, FutureCall.isDestroy, count_destroy_block_until_ready]
  | Cancel =>
    simp [TypedFuture.call, FutureCall.isDestroy, future.Cancel]
  | GetWithError e =>
    cases x with
    | value v =>
      simp only [TypedFuture.call, FutureCall.isDestroy, TypedFuture.handle,
        Bool.false_eq_true, if_false]
      unfold FutureValue.GetWithError
      split_ifs <;> simp [count_destroy_block_until_ready]
    | key k =>
      simp only [TypedFuture.call, FutureCall.isDestroy, TypedFuture.handle,
        Bool.false_eq_true, if_false]
      unfold FutureKey.GetWithError
      split
      · simp
      · split_ifs <;> simp [count_destroy_block_until_ready]
    | void f =>
      simp only [TypedFuture.call, FutureCall.isDestroy, TypedFuture.handle,
        Bool.false_eq_true, if_false]
      unfold FutureNil.GetWithError
      split_ifs <;> simp [count_destroy_block_until_ready]
    | keyValueArray f =>
      simp only [TypedFuture.call, FutureCall.isDestroy, TypedFuture.handle,
        Bool.false_eq_true, if_false]
      rw [FutureKeyValueArray.GetWithError_calls f e]
      simp [count_destroy_block_until_ready]
    | version v =>
      simp only [TypedFuture.call, FutureCall.isDestroy, TypedFuture.handle,
        Bool.false_eq_true, if_false]
      unfold FutureVersion.GetWithError
      split_ifs <;> simp [count_destroy_block_until_ready]

/-- C3, as stated, fails: two `destroy` calls on one future issue destroy-handle
for its handle twice. -/
theorem TypedFuture.destroy_twice :
    ¬ (((TypedFuture.value ⟨7, none, false⟩).run [.destroy, .destroy]).2.count
        (.fdb_future_destroy 7) ≤ 1) := by
  decide

/-- C3, amended: for every typed future and every sequence of `destroy`,
readiness-check, wait, cancel and extract calls, destroy-handle is issued for
the future's handle exactly once per `destroy` call and by no other call; so it
is issued at most once exactly when `destroy` is called at most once. -/
theorem TypedFuture.run_count_destroy (cs : List FutureCall) :
    ∀ x : TypedFuture,
      (x.run cs).2.count (.fdb_future_destroy x.handle) = cs.countP FutureCall.isDestroy := by
  induction cs with
  | nil => intro x; simp [TypedFuture.run]
  | cons c cs ih =>
    intro x
    simp only [TypedFuture.run, List.count_append, List.countP_cons]
    have h1 := ih (x.call c).1
    rw [TypedFuture.call_handle] at h1
    rw [h1, TypedFuture.call_count_destroy]
    cases c <;> simp [FutureCall.isDestroy]
    omega

/-- The invariant only asks for more callback invocations as lower bound. -/
theorem Waiter.Inv_mono (cgocheck : Bool) (f : FDBFuture) (r : Int) (n m : Nat) (w : Waiter)
    (hnm : n ≤ m) (h : Waiter.Inv cgocheck f r n w) : Waiter.Inv cgocheck f r m w := by
  obtain ⟨pc, calls, sw, rc⟩ := w
  cases pc <;> simp only [Waiter.Inv] at h ⊢
  · exact h
  · exact h
  · exact ⟨h.1, h.2.1, h.2.2.1, h.2.2.2.1, fun hs => Nat.lt_of_lt_of_le (h.2.2.2.2 hs) hnm⟩
  · rcases h with h | h
    · exact Or.inl h
    · exact Or.inr ⟨h.1, h.2.1, h.2.2.1, h.2.2.2.1, Nat.lt_of_lt_of_le h.2.2.2.2 hnm⟩
  · exact h

/-- Every event keeps the invariant of the blocking wait. -/
theorem Waiter.step_inv (cgocheck : Bool) (f : FDBFuture) (r : Int) (n : Nat) (w : Waiter)
    (ev : WaitEvent) (h : Waiter.Inv cgocheck f r n w) :
    Waiter.Inv cgocheck f r (n + [ev].count .callback) (w.step cgocheck f ev) := by
  obtain ⟨pc, calls, sw, rc⟩ := w
  cases ev with
  | sched ready =>
    apply Waiter.Inv_mono cgocheck f r n _ _ (Nat.le_add_right _ _)
    cases pc with
    | entry => simp [Waiter.Inv] at h
    | checked r1 =>
      simp only [Waiter.Inv] at h
      obtain ⟨h1, h2, h3, h4⟩ := h
      subst h1
      by_cases hr : r1 = 0
      · simp [Waiter.step, Waiter.Inv, hr, h2, h3, h4]
      · simp [Waiter.step, Waiter.Inv, hr, h2, h3]
    | chanMade =>
      simp only [Waiter.Inv] at h
      obtain ⟨h1, h2, h3, h4⟩ := h
      cases cgocheck
      · simp [Waiter.step, Waiter.Inv, h1, h2, h3, h4]
      · simp [Waiter.step, Waiter.Inv, h1, h2, h3]
    | receiving =>
      simp only [Waiter.Inv] at h
      obtain ⟨h0, h1, h2, h3, h4⟩ := h
      cases sw
      · simp [Waiter.step, Waiter.Inv, h0, h1, h2, h3]
      · simp [Waiter.step, Waiter.Inv, h0, h1, h2, h3, h4 rfl]
    | returned => simpa [Waiter.step, Waiter.Inv] using h
    | panicked => simpa [Waiter.step, Waiter.Inv] using h
  | callback =>
    cases pc with
    | entry => simp [Waiter.Inv] at h
    | checked r1 =>
      exact Waiter.Inv_mono cgocheck f r n _ _ (Nat.le_add_right _ _)
        (by simpa [Waiter.step] using h)
    | chanMade =>
      exact Waiter.Inv_mono cgocheck f r n _ _ (Nat.le_add_right _ _)
        (by simpa [Waiter.step] using h)
    | receiving =>
      simp only [Waiter.Inv] at h
      obtain ⟨h0, h1, h2, h3, _⟩ := h
      simp [Waiter.step, notifyChannel, Waiter.Inv, h0, h1, h2, h3]
    | returned =>
      exact Waiter.Inv_mono cgocheck f r n _ _ (Nat.le_add_right _ _)
        (by simpa [Waiter.step] using h)
    | panicked =>
      exact Waiter.Inv_mono cgocheck f r n _ _ (Nat.le_add_right _ _)
        (by simpa [Waiter.step] using h)

/-- Every sequence of events keeps the invariant of the blocking wait. -/
theorem Waiter.exec_inv (cgocheck : Bool) (f : FDBFuture) (r : Int) (evs : List WaitEvent) :
    ∀ (n : Nat) (w : Waiter), Waiter.Inv cgocheck f r n w →
      Waiter.Inv cgocheck f r (n + evs.count .callback) (Waiter.exec cgocheck f w evs) := by
  induction evs with
  | nil => intro n w h; simpa [Waiter.exec] using h
  | cons ev evs ih =>
    intro n w h
    have h1 := ih _ _ (Waiter.step_inv cgocheck f r n w ev h)
    simp only [Waiter.exec]
    refine Waiter.Inv_mono cgocheck f r _ _ _ (Nat.le_of_eq ?_) h1
    simp only [List.count_cons, List.count_nil]
    omega

/-- The invariant holds from the answer to the readiness query on. -/
theorem Waiter.inv_after_query (cgocheck : Bool) (f : FDBFuture) (r : Int)
    (rest : List WaitEvent) :
    Waiter.Inv cgocheck f r (rest.count .callback)
      (Waiter.exec cgocheck f Waiter.init (.sched r :: rest)) := by
  have h := Waiter.exec_inv cgocheck f r rest 0
    (Waiter.step cgocheck f Waiter.init (.sched r))
    (by simp [Waiter.init, Waiter.step, Waiter.Inv])
  rw [Nat.zero_add] at h
  exact h

/-- The blocking wait over every interleaving of its statements with callback
invocations.  It queries readiness exactly once, and when it returns it has
issued the calls of `fdb_future_block_until_ready`.  If the engine answers
ready, it registers no callback and returns at once.  Otherwise, when the
runtime lets the call to `go_set_callback` through, it registers one callback,
never queries readiness again, and reaches its return only after having
received one signal from the channel, which takes an invocation of the
callback; when the runtime checks the pointers handed to C, it panics with no
callback registered and never returns.  A callback invocation before the wait
started changes nothing. -/
theorem fdb_future_block_until_ready_waits (cgocheck : Bool) (f : FDBFuture) (r : Int)
    (rest : List WaitEvent) :
    (Waiter.exec cgocheck f Waiter.init (.callback :: rest) =
      Waiter.exec cgocheck f Waiter.init rest) ∧
    (Waiter.exec cgocheck f Waiter.init (.sched r :: rest)).calls.count
      (.fdb_future_is_ready f) = 1 ∧
    ((Waiter.exec cgocheck f Waiter.init (.sched r :: rest)).pc = .returned →
      (Waiter.exec cgocheck f Waiter.init (.sched r :: rest)).calls =
        fdb_future_block_until_ready f r) ∧
    (r ≠ 0 →
      (Waiter.exec cgocheck f Waiter.init (.sched r :: rest)).calls = [.fdb_future_is_ready f] ∧
      (Waiter.exec cgocheck f Waiter.init (.sched r :: rest)).received = 0 ∧
      ∀ r2, Waiter.exec cgocheck f Waiter.init [.sched r, .sched r2] =
        ⟨.returned, [.fdb_future_is_ready f], false, 0⟩) ∧
    (r = 0 → cgocheck = false →
      (Waiter.exec cgocheck f Waiter.init (.sched r :: rest)).calls.count
        (.go_set_callback f) ≤ 1 ∧
      ((Waiter.exec cgocheck f Waiter.init (.sched r :: rest)).pc = .returned →
        (Waiter.exec cgocheck f Waiter.init (.sched r :: rest)).calls =
          [.fdb_future_is_ready f, .go_set_callback f] ∧
        (Waiter.exec cgocheck f Waiter.init (.sched r :: rest)).received = 1 ∧
        0 < rest.count .callback) ∧
      ∀ r2 r3 r4,
        Waiter.exec cgocheck f Waiter.init
            [.sched r, .sched r2, .sched r3, .callback, .sched r4] =
          ⟨.returned, [.fdb_future_is_ready f, .go_set_callback f], false, 1⟩) ∧
    (r = 0 → cgocheck = true →
      (Waiter.exec cgocheck f Waiter.init (.sched r :: rest)).pc ≠ .returned ∧
      (Waiter.exec cgocheck f Waiter.init (.sched r :: rest)).calls = [.fdb_future_is_ready f] ∧
      ∀ r2 r3, Waiter.exec cgocheck f Waiter.init [.sched r, .sched r2, .sched r3] =
        ⟨.panicked, [.fdb_future_is_ready f], false, 0⟩) := by
  have hinv := Waiter.inv_after_query cgocheck f r rest
  generalize Waiter.exec cgocheck f Waiter.init (.sched r :: rest) = w at hinv
  obtain ⟨pc, calls, sw, rc⟩ := w
  refine ⟨?_, ?_, ?_, ?_, ?_, ?_⟩
  · simp [Waiter.exec, Waiter.step, Waiter.init]
  · cases pc <;> simp only [Waiter.Inv] at hinv
    · simp [hinv.2.1]
    · simp [hinv.2.1]
    · simp [hinv.2.2.1]
    · rcases hinv with h | h
      · simp [h.2.1]
      · simp [h.2.2.1]
    · simp [hinv.2.2.1]
  · intro hpc
    simp only at hpc
    subst hpc
    simp only [Waiter.Inv] at hinv
    rcases hinv with h | h
    · simp [fdb_future_block_until_ready, h.1, h.2.1]
    · simp [fdb_future_block_until_ready, h.2.1, h.2.2.1]
  · intro hr
    refine ⟨?_, ?_, ?_⟩
    · cases pc <;> simp only [Waiter.Inv] at hinv
      · exact hinv.2.1
      · exact absurd hinv.1 hr
      · exact absurd hinv.2.1 hr
      · rcases hinv with h | h
        · exact h.2.1
        · exact absurd h.2.1 hr
      · exact absurd hinv.2.1 hr
    · cases pc <;> simp only [Waiter.Inv] at hinv
      · exact hinv.2.2.1
      · exact absurd hinv.1 hr
      · exact absurd hinv.2.1 hr
      · rcases hinv with h | h
        · exact h.2.2
        · exact absurd h.2.1 hr
      · exact absurd hinv.2.1 hr
    · intro r2
      simp [Waiter.exec, Waiter.step, Waiter.init, hr]
  · intro hr hc
    subst hc
    refine ⟨?_, ?_, ?_⟩
    · cases pc <;> simp only [Waiter.Inv] at hinv
      · simp [hinv.2.1]
      · simp [hinv.2.1]
      · simp [hinv.2.2.1]
      · rcases hinv with h | h
        · simp [h.2.1]
        · simp [h.2.2.1]
      · simp at hinv
    · intro hpc
      simp only at hpc
      subst hpc
      simp only [Waiter.Inv] at hinv
      rcases hinv with h | h
      · exact absurd hr h.1
      · exact ⟨h.2.2.1, h.2.2.2.1, h.2.2.2.2⟩
    · intro r2 r3 r4
      simp [Waiter.exec, Waiter.step, notifyChannel, Waiter.init, hr]
  · intro hr hc
    subst hc
    refine ⟨?_, ?_, ?_⟩
    · intro hpc
      simp only at hpc
      subst hpc
      simp only [Waiter.Inv] at hinv
      rcases hinv with h | h
      · exact h.1 hr
      · simp at h
    · cases pc <;> simp only [Waiter.Inv] at hinv
      · exact hinv.2.1
      · exact hinv.2.1
      · simp at hinv
      · rcases hinv with h | h
        · exact h.2.1
        · simp at h
      · exact hinv.2.2.1
    · intro r2 r3
      simp [Waiter.exec, Waiter.step, Waiter.init, hr]

/-- An instance of the blocking wait going through: the engine answers "not
ready", the runtime lets `go_set_callback` through, the callback fires while the
goroutine waits in the receive, and the wait returns having queried readiness
once, registered one callback and received one signal. -/
theorem fdb_future_block_until_ready_waits_witness :
    (Waiter.exec false 7 Waiter.init
      [.sched 0, .sched 0, .sched 0, .sched 1, .callback, .sched 1]).pc = .returned ∧
    (Waiter.exec false 7 Waiter.init
      [.sched 0, .sched 0, .sched 0, .sched 1, .callback, .sched 1]).calls
      = [.fdb_future_is_ready 7, .go_set_callback 7] ∧
    (Waiter.exec false 7 Waiter.init
      [.sched 0, .sched 0, .sched 0, .sched 1, .callback, .sched 1]).received = 1 :=
  ⟨by decide,
   (((fdb_future_block_until_ready_waits false 7 0
      [.sched 0, .sched 0, .sched 1, .callback, .sched 1]).2.2.2.2.1 rfl rfl).2.1
        (by decide)).1,
   (((fdb_future_block_until_ready_waits false 7 0
      [.sched 0, .sched 0, .sched 1, .callback, .sched 1]).2.2.2.2.1 rfl rfl).2.1
        (by decide)).2.1⟩

/-- C4 at the failing input: a future the engine reports as not ready, on a Go
runtime that checks the pointers handed to C.  The wait queries readiness once
and then panics in the call to `go_set_callback`: it has registered no callback,
the calls of a completed wait, `fdb_future_block_until_ready`, are never
reached, and no later callback invocation or scheduling makes it return. -/
theorem fdb_future_block_until_ready_cgocheck_panics :
    Waiter.exec true 7 Waiter.init [.sched 0, .sched 0, .sched 0] =
      ⟨.panicked, [.fdb_future_is_ready 7], false, 0⟩ ∧
    fdb_future_block_until_ready 7 0 = [.fdb_future_is_ready 7, .go_set_callback 7] ∧
    Waiter.exec true 7 Waiter.init [.sched 0, .sched 0, .sched 0, .callback, .sched 0] =
      ⟨.panicked, [.fdb_future_is_ready 7], false, 0⟩ := by
  decide

end fdb

namespace subspace

open fdb

/-- The function `concat` returns its first argument followed by its second. -/
theorem concat_eq_append (a b : List Byte) : concat a b = a ++ b := by
  simp [concat, copy]

/-- Go's `bytes.HasPrefix` holds exactly when the string is the given beginning
followed by some rest. -/
theorem bytes.HasPrefix_iff (s pre : List Byte) :
    bytes.HasPrefix s pre = true ↔ ∃ rest, s = pre ++ rest := by
  constructor
  · intro h
    simp only [bytes.HasPrefix, Bool.and_eq_true, decide_eq_true_eq] at h
    refine ⟨s.drop pre.length, ?_⟩
    conv_lhs => rw [← List.take_append_drop pre.length s]
    rw [h.2]
  · rintro ⟨rest, rfl⟩
    simp [bytes.HasPrefix]

/-- C5: `Contains(K)` is true exactly when `K` begins with the prefix of the
subspace, false otherwise; `AllKeys()` contains every key. -/
theorem subspace.Contains_iff_begins (s : subspace) (k : List Byte) :
    (s.Contains k = true ↔ ∃ rest, k = s.b ++ rest) ∧
    (s.Contains k = false ↔ ¬ ∃ rest, k = s.b ++ rest) ∧
    AllKeys.Contains k = true := by
  have h := bytes.HasPrefix_iff k s.b
  refine ⟨h, ?_, ?_⟩
  · rw [← h]
    simp [subspace.Contains]
  · simp [subspace.Contains, AllKeys, bytes.HasPrefix]

/-- C6: when the tuple layer round-trips, so does the subspace: `Pack(E)` is the
prefix followed by `tuple.Pack(E)`, `Unpack` of a key in the subspace decodes
the key without its first `len(prefix)` bytes, and `Unpack(Pack(E))` succeeds
with `E`. -/
theorem subspace.Unpack_Pack {T : Type} (tuplePack : T → List Byte)
    (tupleUnpack : List Byte → Except String T)
    (hroundtrip : ∀ E, tupleUnpack (tuplePack E) = .ok E) (s : subspace) (E : T) :
    s.Unpack tupleUnpack (s.Pack tuplePack E) = .ok E ∧
    s.Pack tuplePack E = s.b ++ tuplePack E ∧
    (∀ rest, s.Unpack tupleUnpack (s.b ++ rest) = tupleUnpack rest) ∧
    (∀ k, s.Contains k = true → s.Unpack tupleUnpack k = tupleUnpack (k.drop s.b.length)) := by
  have hrest : ∀ rest, s.Unpack tupleUnpack (s.b ++ rest) = tupleUnpack rest := by
    intro rest
    have hp : bytes.HasPrefix (s.b ++ rest) s.b = true :=
      (bytes.HasPrefix_iff _ _).2 ⟨rest, rfl⟩
    simp [subspace.Unpack, hp]
  refine ⟨?_, ?_, hrest, ?_⟩
  · rw [subspace.Pack, concat_eq_append, hrest, hroundtrip]
  · rw [subspace.Pack, concat_eq_append]
  · intro k hk
    simp only [subspace.Contains] at hk
    simp [subspace.Unpack, hk]

/-- An instance of C6 with the stand-in tuple encoding: the subspace with prefix
`15 02` packs the tuple `01 02 03` behind its prefix and unpacks it again. -/
theorem subspace.Unpack_Pack_witness :
    (∀ E, demoUnpack (demoPack E) = .ok E) ∧
    subspace.Unpack demoUnpack ⟨[0x15, 0x02]⟩
      (subspace.Pack demoPack ⟨[0x15, 0x02]⟩ [0x01, 0x02, 0x03]) = .ok [0x01, 0x02, 0x03] ∧
    subspace.Pack demoPack ⟨[0x15, 0x02]⟩ [0x01, 0x02, 0x03] =
      [0x15, 0x02, 0x01, 0x01, 0x02, 0x03] :=
  ⟨fun _ => rfl,
   (subspace.Unpack_Pack demoPack demoUnpack (fun _ => rfl) ⟨[0x15, 0x02]⟩
      [0x01, 0x02, 0x03]).1,
   (subspace.Unpack_Pack demoPack demoUnpack (fun _ => rfl) ⟨[0x15, 0x02]⟩
      [0x01, 0x02, 0x03]).2.1⟩

/-- Membership in the range between a byte string followed by `00` and the same
byte string followed by `FF`. -/
theorem inRange_append (p k : List Byte) :
    inRange (p ++ [0x00]) (p ++ [0xFF]) k = true ↔
      ∃ b rest, k = p ++ b :: rest ∧ b ≠ 0xFF := by
  induction p generalizing k with
  | nil =>
    cases k with
    | nil => simp [inRange, keyLess]
    | cons y ys =>
      have hy : ¬ y < 0 := Fin.not_lt_zero y
      have h255 : y < 0xFF ↔ y ≠ 0xFF := by
        constructor
        · intro h1 h2; rw [h2] at h1; exact absurd h1 (lt_irrefl _)
        · intro h1
          rcases lt_or_ge y 0xFF with h2 | h2
          · exact h2
          · exfalso
            apply h1
            apply Fin.ext
            have h3 : (0xFF : Byte).val ≤ y.val := h2
            have h4 := y.isLt
            have h5 : (0xFF : Byte).val = 255 := rfl
            omega
      cases ys <;> simp [inRange, keyLess, hy, h255]
  | cons x xs ih =>
    cases k with
    | nil => simp [inRange, keyLess]
    | cons y ys =>
      rcases lt_trichotomy y x with h | h | h
      · have h1 : ¬ x < y := not_lt.2 (le_of_lt h)
        have h2 : y ≠ x := ne_of_lt h
        have h3 : x ≠ y := fun e => h2 e.symm
        simp [inRange, keyLess, h, h2, h3]
      · subst h
        have := ih ys
        simp only [inRange, Bool.and_eq_true, Bool.not_eq_true'] at this
        simp [inRange, keyLess, this]
      · have h1 : ¬ y < x := not_lt.2 (le_of_lt h)
        have h2 : y ≠ x := (ne_of_lt h).symm
        have h3 : x ≠ y := fun e => h2 e.symm
        simp [inRange, keyLess, h1, h2, h3]

/-- C7 at the failing inputs, for the subspace with prefix `61`: the key equal
to the prefix is contained in the subspace but lies before `BeginKey()`, and the
key `61 FF 01`, which continues the prefix with the byte `FF`, is contained but
is not below `EndKey()`.  The range is not the set of keys that `Contains`
accepts, which the comments on `Contains` and on `fdb.ExactRange` say it is. -/
theorem subspace.range_misses_contained_keys :
    ¬ (inRange (subspace.BeginKey ⟨[0x61]⟩) (subspace.EndKey ⟨[0x61]⟩) [0x61] = true ↔
        subspace.Contains ⟨[0x61]⟩ [0x61] = true) ∧
    ¬ (inRange (subspace.BeginKey ⟨[0x61]⟩) (subspace.EndKey ⟨[0x61]⟩) [0x61, 0xFF, 0x01] = true ↔
        subspace.Contains ⟨[0x61]⟩ [0x61, 0xFF, 0x01] = true) := by
  decide

/-- What the range of a subspace holds: a key lies in
`[s.BeginKey(), s.EndKey())` exactly when it is the prefix of `s` followed by at
least one more byte, the first of which is not `FF`; every key of the range is
contained in `s`, but not every contained key is in the range. -/
theorem subspace.range_iff (s : subspace) (k : List Byte) :
    (inRange s.BeginKey s.EndKey k = true ↔ ∃ b rest, k = s.b ++ b :: rest ∧ b ≠ 0xFF) ∧
    (inRange s.BeginKey s.EndKey k = true → s.Contains k = true) := by
  have h : inRange s.BeginKey s.EndKey k = true ↔ ∃ b rest, k = s.b ++ b :: rest ∧ b ≠ 0xFF := by
    rw [subspace.BeginKey, subspace.EndKey, concat_eq_append, concat_eq_append]
    exact inRange_append s.b k
  refine ⟨h, fun hk => ?_⟩
  obtain ⟨b, rest, hkeq, _⟩ := h.1 hk
  exact (bytes.HasPrefix_iff k s.b).2 ⟨b :: rest, hkeq⟩

/-- An instance of `range_iff`: the key `61 62` lies in the range of the
subspace with prefix `61` and is contained in it. -/
theorem subspace.range_iff_witness :
    inRange (subspace.BeginKey ⟨[0x61]⟩) (subspace.EndKey ⟨[0x61]⟩) [0x61, 0x62] = true ∧
    subspace.Contains ⟨[0x61]⟩ [0x61, 0x62] = true :=
  ⟨by decide, (subspace.range_iff ⟨[0x61]⟩ [0x61, 0x62]).2 (by decide)⟩

end subspace

namespace fdb

/-- Writing one element past the first `n` leaves the first `n` elements alone. -/
theorem take_set_self (l : List Byte) (n : Nat) (b : Byte) :
    (l.set n b).take n = l.take n := by
  induction l generalizing n with
  | nil => simp
  | cons x xs ih =>
    cases n with
    | zero => simp
    | succ m => simp [ih]

/-- Writing element `n` of a longer list makes it the last of the first `n+1`. -/
theorem take_succ_set (l : List Byte) (n : Nat) (b : Byte) (h : n < l.length) :
    (l.set n b).take (n + 1) = l.take n ++ [b] := by
  induction l generalizing n with
  | nil => simp at h
  | cons x xs ih =>
    cases n with
    | zero => simp
    | succ m =>
      have hm : m < xs.length := by simpa using h
      simp [ih m hm]

/-- Go's `append` yields the old contents followed by the new byte. -/
theorem goAppend_bytes (s : Slice) (b : Byte) (spare : Nat) (hwf : s.len ≤ s.arr.length) :
    (goAppend s b spare).1.bytes = s.bytes ++ [b] := by
  unfold goAppend
  split_ifs with h
  · simp only [Slice.bytes]
    exact take_succ_set s.arr s.len b h
  · have hlen : s.len = s.arr.length := by omega
    simp only [Slice.bytes, hlen, List.take_length, List.append_assoc, List.singleton_append]
    rw [List.take_append]
    simp

/-- Go's `append` leaves the contents of the slice it extends unchanged. -/
theorem goAppend_keeps (s : Slice) (b : Byte) (spare : Nat) :
    Slice.bytes ⟨(goAppend s b spare).2, s.len⟩ = s.bytes := by
  unfold goAppend
  split_ifs with h
  · simp only [Slice.bytes]
    exact take_set_self s.arr s.len b
  · rfl

/-- The outcome of `addConflictRange` on non-empty bounds: one engine call, and
an `Error` with the engine's code exactly when that code is non-zero. -/
theorem Transaction.addConflictRange_nonempty (t : Transaction) (engine : EngineCall → Int)
    (begin_ end_ : List Byte) (crtype : ConflictRangeType) (hb : begin_ ≠ []) (he : end_ ≠ []) :
    t.addConflictRange engine begin_ end_ crtype =
      ⟨[.fdb_transaction_add_conflict_range t.t begin_ (toCInt begin_.length)
          end_ (toCInt end_.length) crtype],
        .ok (if engine (.fdb_transaction_add_conflict_range t.t begin_ (toCInt begin_.length)
            end_ (toCInt end_.length) crtype) ≠ 0
          then some ⟨engine (.fdb_transaction_add_conflict_range t.t begin_
            (toCInt begin_.length) end_ (toCInt end_.length) crtype)⟩
          else none)⟩ := by
  cases begin_ with
  | nil => exact absurd rfl hb
  | cons x xs =>
    cases end_ with
    | nil => exact absurd rfl he
    | cons y ys => rfl

/-- C8: for a non-empty key, `AddReadConflictKey` and `AddWriteConflictKey`
behave as `AddReadConflictRange` and `AddWriteConflictRange` on
`(key, key ++ 00)`: they make the one engine call declaring `[key, key ++ 00)`
with the read, respectively write, type, return an `Error` with the engine's
code exactly when that code is non-zero, and leave the bytes of the caller's
key as they were. -/
theorem Transaction.AddConflictKey_declares (t : Transaction) (engine : EngineCall → Int)
    (key : Slice) (spare : Nat) (hwf : key.len ≤ key.arr.length) (hne : key.bytes ≠ []) :
    (t.AddReadConflictKey engine key spare).1 =
        t.AddReadConflictRange engine key.bytes (key.bytes ++ [0x00]) ∧
    (t.AddWriteConflictKey engine key spare).1 =
        t.AddWriteConflictRange engine key.bytes (key.bytes ++ [0x00]) ∧
    (t.AddReadConflictKey engine key spare).1.calls = [conflictKeyCall t key.bytes .Read] ∧
    (t.AddWriteConflictKey engine key spare).1.calls = [conflictKeyCall t key.bytes .Write] ∧
    (t.AddReadConflictKey engine key spare).1.result =
      .ok (if engine (conflictKeyCall t key.bytes .Read) ≠ 0
        then some ⟨engine (conflictKeyCall t key.bytes .Read)⟩ else none) ∧
    (t.AddWriteConflictKey engine key spare).1.result =
      .ok (if engine (conflictKeyCall t key.bytes .Write) ≠ 0
        then some ⟨engine (conflictKeyCall t key.bytes .Write)⟩ else none) ∧
    (t.AddReadConflictKey engine key spare).2.bytes = key.bytes ∧
    (t.AddWriteConflictKey engine key spare).2.bytes = key.bytes := by
  have h1 := goAppend_bytes key 0x00 spare hwf
  have h2 := goAppend_keeps key 0x00 spare
  have hne2 : key.bytes ++ [0x00] ≠ [] := by simp
  have hr := Transaction.addConflictRange_nonempty t engine key.bytes (key.bytes ++ [0x00])
    .Read hne hne2
  have hw := Transaction.addConflictRange_nonempty t engine key.bytes (key.bytes ++ [0x00])
    .Write hne hne2
  simp only [Transaction.AddReadConflictKey, Transaction.AddWriteConflictKey,
    Transaction.AddReadConflictRange, Transaction.AddWriteConflictRange, h1, h2, conflictKeyCall]
  rw [hr, hw]
  simp

/-- An instance of C8: the key `61 62` held in a buffer with spare capacity; the
engine rejects every declaration with code 2004. -/
theorem Transaction.AddConflictKey_declares_witness :
    (Transaction.AddReadConflictKey ⟨1⟩ (fun _ => 2004) ⟨[0x61, 0x62, 0x63, 0x64], 2⟩ 0).1.calls =
      [.fdb_transaction_add_conflict_range 1 [0x61, 0x62] 2 [0x61, 0x62, 0x00] 3 .Read] ∧
    (Transaction.AddReadConflictKey ⟨1⟩ (fun _ => 2004) ⟨[0x61, 0x62, 0x63, 0x64], 2⟩ 0).1.result =
      .ok (some ⟨2004⟩) ∧
    (Transaction.AddReadConflictKey ⟨1⟩ (fun _ => 2004) ⟨[0x61, 0x62, 0x63, 0x64], 2⟩ 0).2.bytes =
      [0x61, 0x62] :=
  ⟨(Transaction.AddConflictKey_declares ⟨1⟩ (fun _ => 2004) ⟨[0x61, 0x62, 0x63, 0x64], 2⟩ 0
      (by decide) (by decide)).2.2.1,
   (Transaction.AddConflictKey_declares ⟨1⟩ (fun _ => 2004) ⟨[0x61, 0x62, 0x63, 0x64], 2⟩ 0
      (by decide) (by decide)).2.2.2.2.1,
   (Transaction.AddConflictKey_declares ⟨1⟩ (fun _ => 2004) ⟨[0x61, 0x62, 0x63, 0x64], 2⟩ 0
      (by decide) (by decide)).2.2.2.2.2.2.1⟩

/-- The conversion `C.int(x)` keeps a value that fits in 32 bits. -/
theorem toCInt_of_fits (x : Int) (hlo : -2 ^ 31 ≤ x) (hhi : x < 2 ^ 31) : toCInt x = x := by
  unfold toCInt
  omega

/-- The conversion `C.fdb_bool_t(boolToInt(b))` is 1 or 0. -/
theorem toCInt_boolToInt (b : Bool) : toCInt (boolToInt b) = if b then 1 else 0 := by
  cases b <;> decide

/-- The first request of `getRangeSelector` on selectors with non-empty keys,
and the cursor it returns. -/
theorem Transaction.getRangeSelector_nonempty (t : Transaction) (fut : FDBFuture)
    (begin_ end_ : KeySelector) (o : RangeOptions) (snapshot : Bool)
    (hb : begin_.Key ≠ []) (he : end_.Key ≠ []) :
    t.getRangeSelector fut begin_ end_ o snapshot =
      ⟨[.fdb_transaction_get_range
          { t := t.t
            begin_key_name := begin_.Key
            begin_key_name_length := toCInt begin_.Key.length
            begin_or_equal := if begin_.OrEqual then 1 else 0
            begin_offset := toCInt begin_.Offset
            end_key_name := end_.Key
            end_key_name_length := toCInt end_.Key.length
            end_or_equal := if end_.OrEqual then 1 else 0
            end_offset := toCInt end_.Offset
            limit := toCInt o.Limit
            target_bytes := 0
            mode := toCInt (wrapInt64 (o.Mode - 1))
            iteration := 1
            snapshot := if snapshot then 1 else 0
            reverse := if o.Reverse then 1 else 0 }],
        .ok ⟨t, begin_, end_, o, snapshot, ⟨fut⟩⟩⟩ := by
  obtain ⟨bk, bo, boff⟩ := begin_
  obtain ⟨ek, eo, eoff⟩ := end_
  cases bk with
  | nil => exact absurd rfl hb
  | cons x xs =>
    cases ek with
    | nil => exact absurd rfl he
    | cons y ys =>
      simp only [Transaction.getRangeSelector, Transaction.doGetRange, toCInt_boolToInt]
      rfl

/-- C9, as stated, fails on the limit: `doGetRange` passes `C.int(options.Limit)`,
so the Go `int` limit 4294967296 reaches the engine as 0, not as itself. -/
theorem Transaction.GetRange_limit_wraps :
    requestLimits (Transaction.GetRange demoFirstGreaterOrEqual ⟨1⟩ 7 [0x61] [0x62]
        ⟨4294967296, 0, false⟩).calls = [0] ∧
    ¬ (requestLimits (Transaction.GetRange demoFirstGreaterOrEqual ⟨1⟩ 7 [0x61] [0x62]
        ⟨4294967296, 0, false⟩).calls = [4294967296]) := by
  decide

/-- C9, amended: for non-empty begin and end keys, and `FirstGreaterOrEqual`
building a selector on the key it is given, `GetRange(begin, end, o)` is
`GetRangeSelector(FirstGreaterOrEqual(begin), FirstGreaterOrEqual(end), o)`:
same cursor, same single engine request.  The cursor stores the two selectors,
the options and snapshot = false unchanged.  The request carries iteration = 1,
snapshot = 0, reverse = `o.Reverse` and as limit `o.Limit` converted to a 32-bit
C `int`, which is `o.Limit` itself whenever `o.Limit` fits in 32 bits. -/
theorem Transaction.GetRange_first_request (FirstGreaterOrEqual : List Byte → KeySelector)
    (t : Transaction) (fut : FDBFuture) (begin_ end_ : List Byte) (o : RangeOptions)
    (hkey : ∀ k, (FirstGreaterOrEqual k).Key = k) (hb : begin_ ≠ []) (he : end_ ≠ []) :
    Transaction.GetRange FirstGreaterOrEqual t fut begin_ end_ o =
      t.GetRangeSelector fut (FirstGreaterOrEqual begin_) (FirstGreaterOrEqual end_) o ∧
    (Transaction.GetRange FirstGreaterOrEqual t fut begin_ end_ o).result =
      .ok ⟨t, FirstGreaterOrEqual begin_, FirstGreaterOrEqual end_, o, false, ⟨fut⟩⟩ ∧
    (Transaction.GetRange FirstGreaterOrEqual t fut begin_ end_ o).calls =
      [.fdb_transaction_get_range
        { t := t.t
          begin_key_name := begin_
          begin_key_name_length := toCInt begin_.length
          begin_or_equal := if (FirstGreaterOrEqual begin_).OrEqual then 1 else 0
          begin_offset := toCInt (FirstGreaterOrEqual begin_).Offset
          end_key_name := end_
          end_key_name_length := toCInt end_.length
          end_or_equal := if (FirstGreaterOrEqual end_).OrEqual then 1 else 0
          end_offset := toCInt (FirstGreaterOrEqual end_).Offset
          limit := toCInt o.Limit
          target_bytes := 0
          mode := toCInt (wrapInt64 (o.Mode - 1))
          iteration := 1
          snapshot := 0
          reverse := if o.Reverse then 1 else 0 }] ∧
    (-2 ^ 31 ≤ o.Limit → o.Limit < 2 ^ 31 →
      requestLimits (Transaction.GetRange FirstGreaterOrEqual t fut begin_ end_ o).calls =
        [o.Limit]) := by
  have hbk : (FirstGreaterOrEqual begin_).Key ≠ [] := by rw [hkey]; exact hb
  have hek : (FirstGreaterOrEqual end_).Key ≠ [] := by rw [hkey]; exact he
  have h := Transaction.getRangeSelector_nonempty t fut (FirstGreaterOrEqual begin_)
    (FirstGreaterOrEqual end_) o false hbk hek
  rw [hkey, hkey] at h
  refine ⟨rfl, ?_, ?_, ?_⟩
  · simp only [Transaction.GetRange, h]
  · simp only [Transaction.GetRange, h]
    rfl
  · intro hlo hhi
    simp only [Transaction.GetRange, h, requestLimits, toCInt_of_fits o.Limit hlo hhi]

/-- An instance of amended C9: `GetRange` from `a` to `c` with limit 10, in
reverse. -/
theorem Transaction.GetRange_first_request_witness :
    (Transaction.GetRange demoFirstGreaterOrEqual ⟨1⟩ 7 [0x61] [0x63] ⟨10, 0, true⟩).result =
      .ok ⟨⟨1⟩, ⟨[0x61], false, 1⟩, ⟨[0x63], false, 1⟩, ⟨10, 0, true⟩, false, ⟨7⟩⟩ ∧
    requestLimits
      (Transaction.GetRange demoFirstGreaterOrEqual ⟨1⟩ 7 [0x61] [0x63] ⟨10, 0, true⟩).calls =
        [10] :=
  ⟨(Transaction.GetRange_first_request demoFirstGreaterOrEqual ⟨1⟩ 7 [0x61] [0x63]
      ⟨10, 0, true⟩ (fun _ => rfl) (by decide) (by decide)).2.1,
   (Transaction.GetRange_first_request demoFirstGreaterOrEqual ⟨1⟩ 7 [0x61] [0x63]
      ⟨10, 0, true⟩ (fun _ => rfl) (by decide) (by decide)).2.2.2 (by decide) (by decide)⟩

/-- Dispatch of `Get`, `Clear` and `Set` on an empty key panics before any
engine call; on a non-empty key `Get` and `Clear` make exactly one engine call
and return, and so does `Set` when the value is non-empty. -/
theorem Transaction.dispatch_by_key (t : Transaction) (fut : FDBFuture)
    (key value : List Byte) :
    (key = [] →
      (t.Get fut key).calls = [] ∧ (t.Get fut key).result = .error .indexOutOfRange ∧
      (t.Clear key).calls = [] ∧ (t.Clear key).result = .error .indexOutOfRange ∧
      (t.Set key value).calls = [] ∧ (t.Set key value).result = .error .indexOutOfRange) ∧
    (key ≠ [] →
      (t.Get fut key).calls = [.fdb_transaction_get t.t key (toCInt key.length) 0] ∧
      (t.Get fut key).result = .ok ⟨fut, none, false⟩ ∧
      (t.Clear key).calls = [.fdb_transaction_clear t.t key (toCInt key.length)] ∧
      (t.Clear key).result = .ok () ∧
      (value ≠ [] →
        (t.Set key value).calls =
          [.fdb_transaction_set t.t key (toCInt key.length) value (toCInt value.length)] ∧
        (t.Set key value).result = .ok ())) := by
  constructor
  · rintro rfl
    exact ⟨rfl, rfl, rfl, rfl, rfl, rfl⟩
  · intro hk
    cases key with
    | nil => exact absurd rfl hk
    | cons x xs =>
      refine ⟨rfl, rfl, rfl, rfl, ?_⟩
      intro hv
      cases value with
      | nil => exact absurd rfl hv
      | cons y ys => exact ⟨rfl, rfl⟩

/-- C10 at the failing input: `Set` with the non-empty key `a` and the empty
value panics on `&value[0]` and makes no engine call. -/
theorem Transaction.Set_empty_value_panics :
    (Transaction.Set ⟨1⟩ [0x61] []).calls = [] ∧
    (Transaction.Set ⟨1⟩ [0x61] []).result = .error .indexOutOfRange :=
  ⟨rfl, rfl⟩

end fdb

namespace fdb

/-- The function `stringRefToSlice` on a string reference that holds the address
and the length of `bytes`: a copy of `bytes`. -/
theorem stringRefToSlice_ok (mem : Nat → Byte) (ptr src : Nat) (bytes : List Byte)
    (hlen : readLE mem (ptr + 8) 4 = bytes.length) (hsrc : readLE mem ptr 8 = src)
    (hfits : bytes.length < 2 ^ 31) (hbytes : readBytes mem src bytes.length = bytes) :
    stringRefToSlice mem ptr = .ok bytes := by
  have hsize : toCInt ((readLE mem (ptr + 8) 4 : Nat) : Int) = (bytes.length : Int) := by
    rw [hlen]
    apply toCInt_of_fits <;> omega
  unfold stringRefToSlice
  simp only [hsize, hsrc]
  by_cases h0 : bytes.length = 0
  · have : bytes = [] := List.length_eq_zero.1 h0
    simp [this]
  · have h1 : ¬ ((bytes.length : Int) = 0) := by omega
    have h2 : ¬ ((bytes.length : Int) < 0) := by omega
    simp only [h1, h2, if_false, Int.toNat_ofNat, hbytes]

/-- One more pass of the decoding loop. -/
theorem FutureKeyValueArray.decode_succ (mem : Nat → Byte) (kvs i n : Nat) :
    FutureKeyValueArray.decode mem kvs i (n + 1) =
      FutureKeyValueArray.push (FutureKeyValueArray.entry mem (kvs + i * 24))
        (FutureKeyValueArray.decode mem kvs (i + 1) n) := rfl

/-- The decoding loop on an array of packed records yields the keys and values
of the records, in the order of the array. -/
theorem FutureKeyValueArray.decode_arrayAt (mem : Nat → Byte) (kvs : Nat)
    (recs : List PackedKV) :
    ∀ i, PackedKV.arrayAt mem kvs i recs = true →
      FutureKeyValueArray.decode mem kvs i recs.length =
        .ok (recs.map fun r => ⟨r.key, r.value⟩) := by
  induction recs with
  | nil => intro i _; rfl
  | cons r rs ih =>
    intro i h
    simp only [PackedKV.arrayAt, PackedKV.storedAt, Bool.and_eq_true, decide_eq_true_eq] at h
    obtain ⟨⟨⟨⟨⟨⟨⟨⟨hkp, hkl⟩, hvp⟩, hvl⟩, hkf⟩, hvf⟩, hkb⟩, hvb⟩, hrest⟩ := h
    have hk := stringRefToSlice_ok mem (kvs + i * 24) r.keyPtr r.key hkl hkp hkf hkb
    have hvl2 : readLE mem (kvs + i * 24 + 12 + 8) 4 = r.value.length := by
      have hadd : kvs + i * 24 + 12 + 8 = kvs + i * 24 + 20 := by omega
      rw [hadd]
      exact hvl
    have hv := stringRefToSlice_ok mem (kvs + i * 24 + 12) r.valuePtr r.value hvl2 hvp hvf hvb
    have hr := ih (i + 1) hrest
    have he : FutureKeyValueArray.entry mem (kvs + i * 24) = .ok ⟨r.key, r.value⟩ := by
      unfold FutureKeyValueArray.entry
      rw [hk, hv]
      rfl
    rw [List.length_cons, FutureKeyValueArray.decode_succ, he, hr]
    rfl

/-- C11: when the engine returns code 0, a count `n` and an array of `n` packed
24-byte records (key pointer at +0, key length at +8, value pointer at +12,
value length at +20), `FutureKeyValueArray.GetWithError` returns exactly `n`
entries, the i-th holding copies of the key and of the value of the i-th
record, in the order of the array, together with `more` = (engine flag ≠ 0) and
a nil error; when the engine returns a non-zero code it returns
`(nil, false, Error{code})`. -/
theorem FutureKeyValueArray.GetWithError_decodes (f : FutureKeyValueArray) (e : EngineReply)
    (recs : List PackedKV) :
    (e.err = 0 → e.count = recs.length → PackedKV.arrayAt e.mem e.kvs 0 recs = true →
      (f.GetWithError e).result =
          .ok (some (recs.map fun r => ⟨r.key, r.value⟩), decide (e.more ≠ 0), none) ∧
      (recs.map fun r => KeyValue.mk r.key r.value).length = recs.length) ∧
    (e.err ≠ 0 → (f.GetWithError e).result = .ok (none, false, some ⟨e.err⟩)) := by
  constructor
  · intro herr hcount harr
    refine ⟨?_, List.length_map _ _⟩
    have hnn : ¬ (e.count < 0) := by omega
    have hdec := FutureKeyValueArray.decode_arrayAt e.mem e.kvs recs 0 harr
    have htn : e.count.toNat = recs.length := by omega
    unfold FutureKeyValueArray.GetWithError
    simp only [herr, ne_eq, not_true_eq_false, if_false, hnn, htn, hdec]
  · intro herr
    unfold FutureKeyValueArray.GetWithError
    simp [herr]

/-- An instance of C11: an array of two records, `a ↦ 12` and `b ↦` the empty
value, with the `more` flag up. -/
theorem FutureKeyValueArray.GetWithError_decodes_witness :
    PackedKV.arrayAt demoKVReply.mem demoKVReply.kvs 0 demoKVRecords = true ∧
    (FutureKeyValueArray.GetWithError ⟨7⟩ demoKVReply).result =
      .ok (some [⟨[0x61], [0x31, 0x32]⟩, ⟨[0x62], []⟩], true, none) :=
  ⟨by decide,
   ((FutureKeyValueArray.GetWithError_decodes ⟨7⟩ demoKVReply demoKVRecords).1 rfl rfl
      (by decide)).1⟩

end fdb

namespace translate_fdb_options

open fdb

/-- Adding 1 and subtracting 1 in Go `int` arithmetic gives the value back. -/
theorem wrapInt64_add_sub (c : Int) (hlo : -2 ^ 63 ≤ c) (hhi : c < 2 ^ 63) :
    wrapInt64 (wrapInt64 (c + 1) - 1) = c := by
  unfold wrapInt64
  omega

/-- A Go `int` is its own value in Go `int` arithmetic. -/
theorem wrapInt64_of_fits (c : Int) (hlo : -2 ^ 63 ≤ c) (hhi : c < 2 ^ 63) :
    wrapInt64 c = c := by
  unfold wrapInt64
  omega

/-- The `mode` argument of the request `doGetRange` makes. -/
theorem doGetRange_mode (t : Transaction) (fut : FDBFuture) (b e : KeySelector)
    (o : RangeOptions) (snapshot : Bool) (iteration : Int)
    (hb : b.Key ≠ []) (he : e.Key ≠ []) :
    requestModes (t.doGetRange fut b e o snapshot iteration).calls =
      [toCInt (wrapInt64 (o.Mode - 1))] := by
  obtain ⟨bk, bo, boff⟩ := b
  obtain ⟨ek, eo, eoff⟩ := e
  cases bk with
  | nil => exact absurd rfl hb
  | cons x xs =>
    cases ek with
    | nil => exact absurd rfl he
    | cons y ys => rfl

/-- What a part printed stays printed whatever follows. -/
theorem Output.mem_andThen_left (a b : Output) (x : Printed) (hx : x ∈ a.printed) :
    x ∈ (a.andThen b).printed := by
  unfold Output.andThen
  cases a.exit with
  | done => exact List.mem_append_left _ hx
  | fatal m => exact hx

/-- What follows a part that did not end the program is printed too. -/
theorem Output.mem_andThen_right (a b : Output) (x : Printed) (ha : a.exit = .done)
    (hx : x ∈ b.printed) : x ∈ (a.andThen b).printed := by
  unfold Output.andThen
  rw [ha]
  exact List.mem_append_right _ hx

/-- Two parts in sequence go on exactly when both do. -/
theorem Output.andThen_done (a b : Output) :
    (a.andThen b).exit = .done ↔ a.exit = .done ∧ b.exit = .done := by
  unfold Output.andThen
  cases a.exit <;> simp

/-- When the loop of `main` gets through the scopes before a scope, what the
loop body prints for that scope is printed by `main`. -/
theorem main_mem (tn lf : String → String) (pre : List Scope) :
    ∀ (scope : Scope) (post : List Scope) (x : Printed),
      (mainLoop tn lf pre).exit = .done → x ∈ (mainScope tn lf scope).printed →
        x ∈ (main tn lf ⟨pre ++ scope :: post⟩).printed := by
  intro scope post x hpre hx
  apply Output.mem_andThen_right _ _ _ rfl
  show x ∈ (mainLoop tn lf (pre ++ scope :: post)).printed
  induction pre with
  | nil => exact Output.mem_andThen_left _ _ _ hx
  | cons p ps ih =>
    have hboth := (Output.andThen_done _ _).1 hpre
    exact Output.mem_andThen_right _ _ _ hboth.1 (ih hboth.2)

/-- The loop body on an enum scope does not end the program and prints, for
every option, the constant `writeEnum` writes. -/
theorem mainScope_enum (tn lf : String → String) (scope : Scope) (opt : Option)
    (hopt : strings.HasSuffix scope.Name "Option" = false) (hmut : scope.Name ≠ "MutationType")
    (ho : opt ∈ scope.Option) :
    (mainScope tn lf scope).exit = .done ∧
      Printed.const (scope.Name ++ tn opt.Name) scope.Name
        (wrapInt64 (opt.Code + if scope.Name = "StreamingMode" then 1 else 0)) ∈
          (mainScope tn lf scope).printed := by
  simp only [mainScope, hopt, hmut, if_false, Bool.false_eq_true, true_and]
  simp only [List.mem_append, List.mem_flatMap, List.mem_singleton, List.mem_cons]
  refine Or.inl (Or.inr ⟨opt, ho, ?_⟩)
  simp [writeEnum]

/-- C12: for every option of the scope `StreamingMode` whose code `c` is a value
of the engine's 32-bit enum, the loop body of the generator prints a constant of
value `c + 1` without ending the program, and `main` prints it whenever its loop
gets to the scope; for an option of another enum scope the constant has the
value `c`.  `doGetRange` sends `options.Mode - 1`: with `Mode` the generated
constant `c + 1` the engine receives the original code `c`, and with the
zero-value `Mode` it receives `-1`. -/
theorem StreamingMode_shift (tn lf : String → String) (pre post : List Scope)
    (scope : Scope) (opt : Option) (ho : opt ∈ scope.Option)
    (hlo : -2 ^ 31 ≤ opt.Code) (hhi : opt.Code < 2 ^ 31) :
    (scope.Name = "StreamingMode" →
      (mainScope tn lf scope).exit = .done ∧
      Printed.const (scope.Name ++ tn opt.Name) scope.Name (opt.Code + 1) ∈
        (mainScope tn lf scope).printed ∧
      ((mainLoop tn lf pre).exit = .done →
        Printed.const (scope.Name ++ tn opt.Name) scope.Name (opt.Code + 1) ∈
          (main tn lf ⟨pre ++ scope :: post⟩).printed) ∧
      ∀ (t : Transaction) (fut : FDBFuture) (b e : KeySelector) (o : RangeOptions)
        (snapshot : Bool) (iteration : Int), b.Key ≠ [] → e.Key ≠ [] →
        o.Mode = opt.Code + 1 →
          requestModes (t.doGetRange fut b e o snapshot iteration).calls = [opt.Code]) ∧
    (strings.HasSuffix scope.Name "Option" = false → scope.Name ≠ "MutationType" →
      scope.Name ≠ "StreamingMode" →
      (mainScope tn lf scope).exit = .done ∧
      Printed.const (scope.Name ++ tn opt.Name) scope.Name opt.Code ∈
        (mainScope tn lf scope).printed ∧
      ((mainLoop tn lf pre).exit = .done →
        Printed.const (scope.Name ++ tn opt.Name) scope.Name opt.Code ∈
          (main tn lf ⟨pre ++ scope :: post⟩).printed)) ∧
    (∀ (t : Transaction) (fut : FDBFuture) (b e : KeySelector) (o : RangeOptions)
      (snapshot : Bool) (iteration : Int), b.Key ≠ [] → e.Key ≠ [] → o.Mode = 0 →
        requestModes (t.doGetRange fut b e o snapshot iteration).calls = [-1]) := by
  refine ⟨?_, ?_, ?_⟩
  · intro hname
    have hopt : strings.HasSuffix scope.Name "Option" = false := by rw [hname]; decide
    have hmut : scope.Name ≠ "MutationType" := by rw [hname]; decide
    obtain ⟨hdone, hmem⟩ := mainScope_enum tn lf scope opt hopt hmut ho
    rw [if_pos hname, wrapInt64_of_fits _ (by omega) (by omega)] at hmem
    refine ⟨hdone, hmem, fun hpre => main_mem tn lf pre scope post _ hpre hmem, ?_⟩
    intro t fut b e o snapshot iteration hb he hmode
    have hreq := doGetRange_mode t fut b e o snapshot iteration hb he
    have h1 : o.Mode - 1 = opt.Code := by omega
    rw [h1, wrapInt64_of_fits _ (by omega) (by omega), toCInt_of_fits _ hlo hhi] at hreq
    exact hreq
  · intro hopt hmut hname
    obtain ⟨hdone, hmem⟩ := mainScope_enum tn lf scope opt hopt hmut ho
    rw [if_neg hname, Int.add_zero, wrapInt64_of_fits _ (by omega) (by omega)] at hmem
    exact ⟨hdone, hmem, fun hpre => main_mem tn lf pre scope post _ hpre hmem⟩
  · intro t fut b e o snapshot iteration hb he hmode
    have hreq := doGetRange_mode t fut b e o snapshot iteration hb he
    rw [hmode] at hreq
    rw [hreq]
    decide

/-- An instance of C12 on `demoCatalog`: the option `SERIAL` with code 4 of the
scope `StreamingMode` is printed as the constant 5, also though the program ends
on a later scope, and a range read with `Mode` 5 sends mode 4. -/
theorem StreamingMode_shift_witness :
    main demoTranslateName demoTranslateName demoCatalog = demoOutput ∧
    Printed.const "StreamingModeSERIAL" "StreamingMode" 5 ∈
      (main demoTranslateName demoTranslateName demoCatalog).printed ∧
    requestModes (Transaction.doGetRange ⟨1⟩ 7 ⟨[0x61], false, 1⟩ ⟨[0x62], false, 1⟩
        ⟨0, 5, false⟩ false 1).calls = [4] :=
  ⟨rfl,
   ((StreamingMode_shift demoTranslateName demoTranslateName
      [⟨"ConflictRangeType", [⟨"READ", 0, "", "", ""⟩, ⟨"WRITE", 1, "", "", ""⟩]⟩]
      [⟨"NetworkOption",
        [⟨"TRACE_ENABLE", 30, "String", "path", "Enables tracing"⟩,
         ⟨"TLS_CERT_BYTES", 32, "Bytes", "certificates", "Sets the certificate chain"⟩]⟩]
      ⟨"StreamingMode",
        [⟨"WANT_ALL", -2, "", "", ""⟩, ⟨"ITERATOR", -1, "", "", ""⟩, ⟨"EXACT", 0, "", "", ""⟩,
         ⟨"SERIAL", 4, "", "", ""⟩]⟩
      ⟨"SERIAL", 4, "", "", ""⟩ (by decide) (by decide) (by decide)).1 rfl).2.2.1 rfl,
   ((StreamingMode_shift demoTranslateName demoTranslateName
      [⟨"ConflictRangeType", [⟨"READ", 0, "", "", ""⟩, ⟨"WRITE", 1, "", "", ""⟩]⟩]
      [⟨"NetworkOption",
        [⟨"TRACE_ENABLE", 30, "String", "path", "Enables tracing"⟩,
         ⟨"TLS_CERT_BYTES", 32, "Bytes", "certificates", "Sets the certificate chain"⟩]⟩]
      ⟨"StreamingMode",
        [⟨"WANT_ALL", -2, "", "", ""⟩, ⟨"ITERATOR", -1, "", "", ""⟩, ⟨"EXACT", 0, "", "", ""⟩,
         ⟨"SERIAL", 4, "", "", ""⟩]⟩
      ⟨"SERIAL", 4, "", "", ""⟩ (by decide) (by decide) (by decide)).1 rfl).2.2.2
      ⟨1⟩ 7 ⟨[0x61], false, 1⟩ ⟨[0x62], false, 1⟩ ⟨0, 5, false⟩ false 1
      (by decide) (by decide) rfl⟩

end translate_fdb_options
